import Mathlib

/-!
Verification of `parler/forms.py` (django-parler): a shallow embedding of the
translated-form machinery — the `TranslatableModelFormMetaclass.__new__` class
assembly, `_get_model_form_field`, `_get_mro_attribute`, and the
`BaseTranslatableModelForm` instance logic (`__init__`, `_post_clean`,
`save_translated_fields`, `_translated_fields`) — together with theorems that
settle the specification's claims about it.

Python dictionaries are modelled as association lists over `String` keys,
machine values abstractly as `Nat`, exceptions as `Except PyError`.
-/

/-- Python exceptions that the embedded code can raise. -/
inductive PyError where
  | translationDoesNotExist : PyError
  | attributeError : PyError
  | typeError : PyError
  | fieldDoesNotExist : PyError
deriving DecidableEq

instance exceptDecidableEq {ε α : Type} [DecidableEq ε] [DecidableEq α] :
    DecidableEq (Except ε α) := fun a b =>
  match a, b with
  | Except.ok x, Except.ok y =>
    if h : x = y then isTrue (by rw [h])
    else isFalse (by intro hc; cases hc; exact h rfl)
  | Except.error e, Except.error f =>
    if h : e = f then isTrue (by rw [h])
    else isFalse (by intro hc; cases hc; exact h rfl)
  | Except.ok _, Except.error _ => isFalse (by intro hc; cases hc)
  | Except.error _, Except.ok _ => isFalse (by intro hc; cases hc)

/-- Keyword-argument dictionaries (for example a `TranslatedField(**kwargs)`
declaration, or the `{'widget': widgets[f_name]}` dict built by the metaclass);
the values are abstracted to `Nat`. -/
abbrev Kwargs := List (String × Nat)

/-- A model field as seen through `model._meta.get_field(name)`: its name and
its `editable` flag, which is all `forms.py` reads from it. -/
structure ModelField where
  name : String
  editable : Bool
deriving DecidableEq

/-- A constructed form field: either `field.formfield(**kwargs)` (the default
model-to-form mapping) or a value built by a `formfield_callback`, tagged by a
`Nat` so that distinct callbacks can produce distinct values. -/
inductive FormField where
  | default : ModelField → Kwargs → FormField
  | custom : Nat → ModelField → Kwargs → FormField
deriving DecidableEq

/-- A `formfield_callback` value from the class attributes: whether it is
invocable (`callable(...)` in Python), and the function it computes when it is.
A callback may return `None`, hence `Option FormField`. -/
structure FormfieldCallback where
  callable : Bool
  apply : ModelField → Kwargs → Option FormField

/-- A class-body attribute value as the metaclass distinguishes them: a
`TranslatedField` placeholder (carrying its `kwargs`), a constructed form
field, Python `None`, or any other attribute (abstracted by a tag). -/
inductive AttrValue where
  | placeholder : Kwargs → AttrValue
  | formfield : FormField → AttrValue
  | pyNone : AttrValue
  | other : Nat → AttrValue
deriving DecidableEq

/-- True exactly on `TranslatedField` placeholder values. -/
def AttrValue.isPlaceholderB : AttrValue → Bool
  | AttrValue.placeholder _ => true
  | _ => false

/-- True exactly on constructed form-field values. -/
def AttrValue.isFormfieldB : AttrValue → Bool
  | AttrValue.formfield _ => true
  | _ => false

/-- The class-body attribute dictionary (`attrs` in the metaclass). -/
abbrev Attrs := List (String × AttrValue)

/-- Dictionary read, `d[k]` / `k in d`: the first binding of `k`. -/
def getEntry {α : Type} : List (String × α) → String → Option α
  | [], _ => none
  | p :: rest, k => if p.1 = k then some p.2 else getEntry rest k

/-- Dictionary write `d[k] = v`: replace the binding in place, or append. -/
def setEntry {α : Type} : List (String × α) → String → α → List (String × α)
  | [], k, v => [(k, v)]
  | p :: rest, k, v => if p.1 = k then (k, v) :: rest else p :: setEntry rest k v

/-- Python `dict.setdefault(k, v)`: insert only when the key is absent. -/
def setdefaultEntry {α : Type} (l : List (String × α)) (k : String) (v : α) :
    List (String × α) :=
  match getEntry l k with
  | some _ => l
  | none => l ++ [(k, v)]

/-- Python `a.update(b)` on kwargs dicts: `b`'s bindings win, new keys append. -/
def kwargsUpdate (a b : Kwargs) : Kwargs :=
  a.map (fun p => match getEntry b p.1 with
    | some v => (p.1, v)
    | none => p)
  ++ b.filter (fun p => (getEntry a p.1).isNone)

/-- One translations ("shadow") model: the model fields it stores.
`get_translated_fields()` is the list of their names. -/
structure TransModel where
  translated_fields : List ModelField
deriving DecidableEq

/-- The `get_translated_fields()` accessor of a translations model / meta. -/
def fieldNames (tm : TransModel) : List String :=
  tm.translated_fields.map ModelField.name

/-- Helper for `model._meta.get_field(name)`: first field with that name. -/
def findField : List ModelField → String → Option ModelField
  | [], _ => none
  | fld :: rest, n => if fld.name = n then some fld else findField rest n

/-- `model._meta.get_field(name)` on a translations model. -/
def get_field (tm : TransModel) (n : String) : Option ModelField :=
  findField tm.translated_fields n

/-- Whether `get_field` finds an editable field named `n` on `tm`. -/
def editableB (tm : TransModel) (n : String) : Bool :=
  match get_field tm n with
  | some fld => fld.editable
  | none => false

/-- A translatable base model: its `_parler_meta`, one entry per registered
translations model. -/
structure ParlerModel where
  parler_meta : List TransModel
deriving DecidableEq

/-- `model._parler_meta.get_all_models()`. -/
def get_all_models (m : ParlerModel) : List TransModel :=
  m.parler_meta

/-- Concatenated translated-field names of a list of translations models. -/
def allFields : List TransModel → List String
  | [] => []
  | tm :: rest => fieldNames tm ++ allFields rest

/-- `model._parler_meta.get_all_fields()`: every translated field name. -/
def get_all_fields (m : ParlerModel) : List String :=
  allFields (get_all_models m)

/-- The Python value of a `Meta.fields` attribute: `None`, the string
`'__all__'`, or a list of names. -/
inductive PyFields where
  | noneV : PyFields
  | all : PyFields
  | list : List String → PyFields
deriving DecidableEq

/-- The resolved `_meta` (`ModelFormOptions`) found on the bases: Django always
populates every attribute, a missing user option becoming `None`. -/
structure ModelFormOptions where
  model : Option ParlerModel
  fields : PyFields
  exclude : Option (List String)
  widgets : Option (List (String × Nat))
deriving DecidableEq

/-- A user-declared `Meta` class in `attrs`: each option attribute may be
absent (outer `none`), in which case `getattr(..., default)` falls back to the
inherited `_meta`'s value. -/
structure MetaClass where
  model : Option ParlerModel
  fields : Option PyFields
  exclude : Option (Option (List String))
  widgets : Option (Option (List (String × Nat)))
deriving DecidableEq

/-- `getattr(form_new_meta, 'fields', form_meta.fields)` where `form_new_meta`
is `attrs.get('Meta', form_meta)`. -/
def effective_meta_fields (form_new_meta : Option MetaClass)
    (fm : ModelFormOptions) : PyFields :=
  match form_new_meta with
  | some m => match m.fields with
    | some f => f
    | none => fm.fields
  | none => fm.fields

/-- `getattr(form_new_meta, 'exclude', form_meta.exclude)`. -/
def effective_meta_exclude (form_new_meta : Option MetaClass)
    (fm : ModelFormOptions) : Option (List String) :=
  match form_new_meta with
  | some m => match m.exclude with
    | some e => e
    | none => fm.exclude
  | none => fm.exclude

/-- `getattr(form_new_meta, 'widgets', form_meta.widgets)`. -/
def effective_meta_widgets (form_new_meta : Option MetaClass)
    (fm : ModelFormOptions) : Option (List (String × Nat)) :=
  match form_new_meta with
  | some m => match m.widgets with
    | some w => w
    | none => fm.widgets
  | none => fm.widgets

/-- `form_model = form_new_meta.model if form_new_meta else form_meta.model`. -/
def effective_form_model (form_new_meta : Option MetaClass)
    (fm : ModelFormOptions) : Option ParlerModel :=
  match form_new_meta with
  | some m => m.model
  | none => fm.model

/-- `if fields == '__all__': fields = None` — afterwards `fields` is `None`
(no restriction) or an inclusive list. -/
def normalize_fields : PyFields → Option (List String)
  | PyFields.noneV => none
  | PyFields.all => none
  | PyFields.list l => some l

/-- Utility to create the formfield from a model field
(`_get_model_form_field` in `forms.py`): a non-editable field yields `None`; a
supplied but non-callable `formfield_callback` raises `TypeError` before any
field is built; otherwise the default mapping or the callback constructs it. -/
def _get_model_form_field (model : TransModel) (name : String)
    (formfield_callback : Option FormfieldCallback) (kwargs : Kwargs) :
    Except PyError (Option FormField) :=
  match get_field model name with
  | none => Except.error PyError.fieldDoesNotExist
  | some field =>
    if field.editable = false then
      Except.ok none
    else
      match formfield_callback with
      | none => Except.ok (some (FormField.default field kwargs))
      | some cb =>
        if cb.callable = false then Except.error PyError.typeError
        else Except.ok (cb.apply field kwargs)

/-- `_get_mro_attribute(bases, name, default)`: first base (each abstracted by
its attribute lookup) that has the attribute, else the default. -/
def _get_mro_attribute (bases : List (String → Option AttrValue))
    (name : String) (default : Option AttrValue) : Option AttrValue :=
  match bases with
  | [] => default
  | b :: rest => match b name with
    | some v => some v
    | none => _get_mro_attribute rest name default

/-- The names of the `TranslatedField` placeholders declared at this class
level (`placeholder_fields` in the metaclass). -/
def placeholderFields (attrs : Attrs) : List String :=
  (attrs.filter (fun p => p.2.isPlaceholderB)).map Prod.fst

/-- The `elif` guard of the synthesis branch: name not among inherited base
fields, allowed by `fields`, not excluded, and not already a class attribute. -/
def synthGuard (form_base_fields : List String) (fields : Option (List String))
    (exclude : List String) (attrs : Attrs) (f_name : String) : Prop :=
  f_name ∉ form_base_fields ∧ (fields = none ∨ f_name ∈ fields.getD [])
    ∧ f_name ∉ exclude ∧ getEntry attrs f_name = none

instance synthGuardDecidable (form_base_fields : List String)
    (fields : Option (List String)) (exclude : List String) (attrs : Attrs)
    (f_name : String) :
    Decidable (synthGuard form_base_fields fields exclude attrs f_name) := by
  unfold synthGuard
  exact inferInstance

/-- How the Python assignment `attrs[f_name] = formfield_or_none` stores the
resolver's result (which may be `None`). -/
def ofFormfieldOpt : Option FormField → AttrValue
  | some ff => AttrValue.formfield ff
  | none => AttrValue.pyNone

/-- A Python `for` loop whose body may raise, folding a state through a list. -/
def foldE {σ α : Type} (f : σ → α → Except PyError σ) (s : σ) :
    List α → Except PyError σ
  | [] => Except.ok s
  | x :: rest =>
    match f s x with
    | Except.error e => Except.error e
    | Except.ok s' => foldE f s' rest

/-- The declared-widget kwargs of the synthesis branch:
`kwargs = {'widget': widgets[f_name]} if f_name in widgets else {}`. -/
def widgetKwargs (widgets : List (String × Nat)) (f_name : String) : Kwargs :=
  match getEntry widgets f_name with
  | some w => [("widget", w)]
  | none => []

/-- The kwargs the synthesis branch passes to the resolver: the declared
widget kwargs, updated with an ancestor `TranslatedField` placeholder's kwargs
when `_get_mro_attribute(bases, f_name)` finds one. -/
def synthKwargs (widgets : List (String × Nat))
    (bases : List (String → Option AttrValue)) (f_name : String) : Kwargs :=
  match _get_mro_attribute bases f_name none with
  | some (AttrValue.placeholder pkw) => kwargsUpdate (widgetKwargs widgets f_name) pkw
  | _ => widgetKwargs widgets f_name

/-- The body of the inner `for f_name in translations_model.get_translated_fields()`
loop of `TranslatableModelFormMetaclass.__new__`: replace a placeholder
declared at this level with the resolver's result (reading `attrs[f_name].kwargs`,
which on a non-placeholder value raises `AttributeError`); otherwise synthesize
the field when the `fields`/`exclude`/presence guard allows, forwarding a
declared widget and any ancestor placeholder's kwargs, and add it only when the
resolver produced one. -/
def processField (translations_model : TransModel)
    (placeholder_fields : List String) (form_base_fields : List String)
    (fields : Option (List String)) (exclude : List String)
    (widgets : List (String × Nat))
    (formfield_callback : Option FormfieldCallback)
    (bases : List (String → Option AttrValue))
    (attrs : Attrs) (f_name : String) : Except PyError Attrs :=
  if f_name ∈ placeholder_fields then
    match getEntry attrs f_name with
    | some (AttrValue.placeholder kw) =>
      match _get_model_form_field translations_model f_name formfield_callback kw with
      | Except.error e => Except.error e
      | Except.ok r => Except.ok (setEntry attrs f_name (ofFormfieldOpt r))
    | _ => Except.error PyError.attributeError
  else
    if synthGuard form_base_fields fields exclude attrs f_name then
      match _get_model_form_field translations_model f_name formfield_callback
          (synthKwargs widgets bases f_name) with
      | Except.error e => Except.error e
      | Except.ok (some formfield) =>
        Except.ok (setEntry attrs f_name (AttrValue.formfield formfield))
      | Except.ok none => Except.ok attrs
    else Except.ok attrs

/-- One round of the outer `for translations_model in ...get_all_models()`
loop: read the effective `fields`/`exclude`/`widgets` options (own `Meta` wins
over the inherited `_meta`, `or ()` turning `None` into empty) and fold the
inner loop over the model's translated field names. -/
def process_translations_model (fm : ModelFormOptions)
    (form_new_meta : Option MetaClass) (form_base_fields : List String)
    (placeholder_fields : List String)
    (formfield_callback : Option FormfieldCallback)
    (bases : List (String → Option AttrValue))
    (attrs : Attrs) (translations_model : TransModel) : Except PyError Attrs :=
  let fields := normalize_fields (effective_meta_fields form_new_meta fm)
  let exclude := (effective_meta_exclude form_new_meta fm).getD []
  let widgets := (effective_meta_widgets form_new_meta fm).getD []
  foldE
    (processField translations_model placeholder_fields form_base_fields
      fields exclude widgets formfield_callback bases)
    attrs (fieldNames translations_model)

/-- `TranslatableModelFormMetaclass.__new__`: when a `_meta` is inherited (the
class is a subclass) and a model is set, detect the placeholders declared at
this level and walk every translations model, updating `attrs`; the updated
attribute dictionary is then handed to the underlying `ModelFormMetaclass`. -/
def TranslatableModelFormMetaclass_new (form_meta : Option ModelFormOptions)
    (form_base_fields : List String) (attrs_Meta : Option MetaClass)
    (formfield_callback : Option FormfieldCallback)
    (bases : List (String → Option AttrValue)) (attrs : Attrs) :
    Except PyError Attrs :=
  match form_meta with
  | none => Except.ok attrs
  | some fm =>
    let form_new_meta := attrs_Meta
    let placeholder_fields := placeholderFields attrs
    match effective_form_model form_new_meta fm with
    | none => Except.ok attrs
    | some form_model =>
      foldE
        (process_translations_model fm form_new_meta form_base_fields
          placeholder_fields formfield_callback bases)
        attrs (get_all_models form_model)

/-- The field-name set of the class the underlying declarative machinery
builds from the final `attrs`: inherited base fields (dropped when shadowed by
an explicit `None`), then the newly declared form-field attributes. -/
def assembled_field_set (form_base_fields : List String) (attrs : Attrs) :
    List String :=
  form_base_fields.filter
      (fun n => !(decide (getEntry attrs n = some AttrValue.pyNone)))
    ++ (attrs.filter
        (fun p => p.2.isFormfieldB && !(form_base_fields.contains p.1))).map Prod.fst

/-- A translation record (shadow object) as read by `getattr(translation, field)`:
its translated attribute values. -/
abbrev Translation := List (String × Nat)

/-- `getattr(translation, field)`: a translation model always defines its
translated-field descriptors, so a missing binding is abstracted to `0`. -/
def translation_getattr (translation : Translation) (field : String) : Nat :=
  (getEntry translation field).getD 0

/-- An existing model instance as `BaseTranslatableModelForm.__init__` reads
it: its current language and its `_parler_meta`, each meta paired with the
instance's per-language store of shadow objects for that meta. -/
structure PInstance where
  current_language : String
  parler_meta : List (TransModel × (String → Option Translation))

/-- `instance._get_translated_model(meta=meta)`: the shadow object of the
instance's current language, raising `TranslationDoesNotExist` when absent. -/
def _get_translated_model (inst : PInstance)
    (meta : TransModel × (String → Option Translation)) :
    Except PyError Translation :=
  match meta.2 inst.current_language with
  | none => Except.error PyError.translationDoesNotExist
  | some translation => Except.ok translation

/-- The form state `__init__` establishes: `self.initial` and the resolved
`self.language_code`. -/
structure FormState where
  initial : List (String × Nat)
  language_code : Option String
deriving DecidableEq

/-- Python `a or b` on an optional language code: `None` and the empty string
are falsy. -/
def pyOr (a : Option String) (b : String) : String :=
  match a with
  | some s => if s = "" then b else s
  | none => b

/-- One round of the `for meta in instance._parler_meta` loop: try to fetch
the shadow object, catching only `TranslationDoesNotExist` (`pass`); on
success `setdefault` every translated field's initial value from it. -/
def load_meta_initial (inst : PInstance) (ini : List (String × Nat))
    (meta : TransModel × (String → Option Translation)) :
    Except PyError (List (String × Nat)) :=
  match _get_translated_model inst meta with
  | Except.error PyError.translationDoesNotExist => Except.ok ini
  | Except.error e => Except.error e
  | Except.ok translation =>
    Except.ok ((fieldNames meta.1).foldl
      (fun ini_cur field =>
        setdefaultEntry ini_cur field (translation_getattr translation field))
      ini)

/-- `BaseTranslatableModelForm.__init__` after the base constructor: load the
initial values of the translated fields from the instance (if any), then
resolve `self.language_code` — keep it when already set (typically by the
admin), else take the instance's current language, else the
`_current_language` kwarg or the process default `get_language()`. -/
def form_init (language_code : Option String)
    (current_language : Option String) (inst : Option PInstance)
    (initial : List (String × Nat)) (get_language : String) :
    Except PyError FormState :=
  let loaded : Except PyError (List (String × Nat)) :=
    match inst with
    | none => Except.ok initial
    | some i => foldE (load_meta_initial i) initial i.parler_meta
  match loaded with
  | Except.error e => Except.error e
  | Except.ok ini =>
    let lc : Option String :=
      match language_code with
      | some lc0 => some lc0
      | none =>
        match inst with
        | some i => some i.current_language
        | none => some (pyOr current_language get_language)
    Except.ok ⟨ini, lc⟩

/-- The model instance as the commit step (`_post_clean`) mutates it: its
current language and the translated attributes of the active translation,
written through the `TranslatedAttribute` descriptors. -/
structure ModelInstance where
  current_language : String
  attrs : List (String × Nat)
deriving DecidableEq

/-- `instance.set_current_language(language_code)`. -/
def set_current_language (inst : ModelInstance) (language_code : String) :
    ModelInstance :=
  ⟨language_code, inst.attrs⟩

/-- `setattr(instance, field, value)` on a translated attribute. -/
def instance_setattr (inst : ModelInstance) (field : String) (value : Nat) :
    ModelInstance :=
  ⟨inst.current_language, setEntry inst.attrs field value⟩

/-- `BaseTranslatableModelForm._translated_fields`: the translated field names
that are also declared fields of this form. -/
def _translated_fields (model : ParlerModel) (form_fields : List String) :
    List String :=
  (get_all_fields model).filter (fun f_name => form_fields.contains f_name)

/-- `BaseTranslatableModelForm.save_translated_fields`: copy each translated
field's cleaned value onto the instance, skipping a field absent from
`cleaned_data` (its own validation failed). -/
def save_translated_fields (translated_fields : List String)
    (cleaned_data : List (String × Nat)) (inst : ModelInstance) :
    ModelInstance :=
  translated_fields.foldl
    (fun i field =>
      match getEntry cleaned_data field with
      | none => i
      | some value => instance_setattr i field value)
    inst

/-- `BaseTranslatableModelForm._post_clean` up to the base class's own
post-clean step (which handles the non-translated fields): set the language
as early as possible, then commit the translated fields. -/
def _post_clean (language_code : String) (translated_fields : List String)
    (cleaned_data : List (String × Nat)) (inst : ModelInstance) :
    ModelInstance :=
  save_translated_fields translated_fields cleaned_data
    (set_current_language inst language_code)

/-- Modelled from the spec (claim C2's words): the asserted resolution order —
an explicitly supplied language code wins, else an existing instance's current
language, else the process-wide default. Stated for comparison with
`form_init`. -/
def claimed_language_resolution (explicit : Option String)
    (inst : Option PInstance) (default_language : String) : String :=
  match explicit with
  | some l => l
  | none =>
    match inst with
    | some i => i.current_language
    | none => default_language

/-- Modelled from the spec (claim C1's words): membership in the field set the
claim asserts — base-declared fields union the translated fields that are not
excluded, not absent from an inclusive `fields` list, and not already present
in inherited base fields or the class's own attributes. -/
def C1_claimed_mem (form_base_fields : List String) (attrs0 : Attrs)
    (fields : Option (List String)) (exclude : List String)
    (model : ParlerModel) (n : String) : Prop :=
  n ∈ form_base_fields ∨
    (n ∈ get_all_fields model ∧ (fields = none ∨ n ∈ fields.getD [])
      ∧ n ∉ exclude ∧ n ∉ form_base_fields ∧ getEntry attrs0 n = none)

/-- The amended claim C1's synthesis predicate: some translations model has an
editable field named `n` and the `fields`/`exclude`/presence guard lets it
through. -/
def synthesized_field (fields : Option (List String)) (exclude : List String)
    (form_base_fields : List String) (model : ParlerModel) (attrs0 : Attrs)
    (n : String) : Prop :=
  ∃ tm, tm ∈ get_all_models model ∧ n ∈ fieldNames tm
    ∧ editableB tm n = true
    ∧ synthGuard form_base_fields fields exclude attrs0 n

/-- A `formfield_callback` is well-behaved: absent, or callable and always
producing a form field. -/
def callbackOK : Option FormfieldCallback → Prop
  | none => True
  | some cb => cb.callable = true ∧ ∀ f kw, (cb.apply f kw).isSome = true

/-! ### Association-list lemmas -/

theorem getEntry_setEntry_self {α : Type} (l : List (String × α)) (k : String)
    (v : α) : getEntry (setEntry l k v) k = some v := by
  induction l with
  | nil => simp [getEntry, setEntry]
  | cons p rest ih =>
    by_cases h : p.1 = k
    · simp [getEntry, setEntry, h]
    · simp [getEntry, setEntry, h, ih]

theorem getEntry_setEntry_ne {α : Type} (l : List (String × α)) (k : String)
    (v : α) (m : String) (h : m ≠ k) :
    getEntry (setEntry l k v) m = getEntry l m := by
  induction l with
  | nil => simp [getEntry, setEntry, Ne.symm h]
  | cons p rest ih =>
    by_cases hp : p.1 = k
    · subst hp
      simp [getEntry, setEntry, Ne.symm h]
    · by_cases hm : p.1 = m
      · subst hm
        simp [getEntry, setEntry, hp]
      · simp [getEntry, setEntry, hp, hm, ih]

theorem mem_keys_setEntry {α : Type} (l : List (String × α)) (k : String)
    (v : α) (m : String) :
    m ∈ (setEntry l k v).map Prod.fst ↔ m ∈ l.map Prod.fst ∨ m = k := by
  induction l with
  | nil => simp [setEntry]
  | cons p rest ih =>
    by_cases hp : p.1 = k
    · subst hp
      simp [setEntry]
      tauto
    · simp [setEntry, hp, ih]
      tauto

theorem keys_nodup_setEntry {α : Type} (l : List (String × α)) (k : String)
    (v : α) (h : (l.map Prod.fst).Nodup) :
    ((setEntry l k v).map Prod.fst).Nodup := by
  induction l with
  | nil => simp [setEntry]
  | cons p rest ih =>
    simp only [List.map_cons, List.nodup_cons] at h
    by_cases hp : p.1 = k
    · subst hp
      simpa [setEntry] using h
    · simp only [setEntry, hp, if_false, List.map_cons, List.nodup_cons]
      refine ⟨?_, ih h.2⟩
      rw [mem_keys_setEntry]
      rintro (hc | hc)
      · exact h.1 hc
      · exact hp hc

theorem mem_of_getEntry_eq_some {α : Type} (l : List (String × α))
    (k : String) (v : α) (h : getEntry l k = some v) : (k, v) ∈ l := by
  induction l with
  | nil => simp [getEntry] at h
  | cons p rest ih =>
    by_cases hp : p.1 = k
    · simp only [getEntry, hp, if_true, Option.some.injEq] at h
      have hpkv : p = (k, v) := Prod.ext hp h
      rw [hpkv]
      exact List.mem_cons_self _ _
    · simp only [getEntry, hp, if_false] at h
      exact List.mem_cons_of_mem _ (ih h)

theorem getEntry_eq_some_of_mem {α : Type} (l : List (String × α))
    (k : String) (v : α) (hnd : (l.map Prod.fst).Nodup) (h : (k, v) ∈ l) :
    getEntry l k = some v := by
  induction l with
  | nil => simp at h
  | cons p rest ih =>
    simp only [List.map_cons, List.nodup_cons] at hnd
    rcases List.mem_cons.1 h with h1 | h1
    · rw [← h1]
      simp [getEntry]
    · have hp : p.1 ≠ k := by
        intro hc
        exact hnd.1 (hc ▸ (List.mem_map.2 ⟨(k, v), h1, rfl⟩))
      simp only [getEntry, hp, if_false]
      exact ih hnd.2 h1

theorem getEntry_eq_none_iff {α : Type} (l : List (String × α)) (k : String) :
    getEntry l k = none ↔ k ∉ l.map Prod.fst := by
  induction l with
  | nil => simp [getEntry]
  | cons p rest ih =>
    by_cases hp : p.1 = k
    · simp [getEntry, hp]
    · simp [getEntry, hp, ih, Ne.symm hp]

theorem getEntry_append {α : Type} (l1 l2 : List (String × α)) (k : String) :
    getEntry (l1 ++ l2) k = (getEntry l1 k).or (getEntry l2 k) := by
  induction l1 with
  | nil => simp [getEntry]
  | cons p rest ih =>
    by_cases hp : p.1 = k
    · simp [getEntry, hp]
    · simp [getEntry, hp, ih]

theorem getEntry_setdefaultEntry_self {α : Type} (l : List (String × α))
    (k : String) (v : α) :
    getEntry (setdefaultEntry l k v) k = (getEntry l k).or (some v) := by
  unfold setdefaultEntry
  cases h : getEntry l k with
  | none => simp [getEntry_append, h, getEntry]
  | some w => simp [h]

theorem getEntry_setdefaultEntry_ne {α : Type} (l : List (String × α))
    (k : String) (v : α) (m : String) (h : m ≠ k) :
    getEntry (setdefaultEntry l k v) m = getEntry l m := by
  unfold setdefaultEntry
  cases hk : getEntry l k with
  | none => simp [getEntry_append, getEntry, Ne.symm h]
  | some w => rfl

theorem setdefaultEntry_of_some {α : Type} (l : List (String × α))
    (k : String) (v w : α) (h : getEntry l k = some w) :
    setdefaultEntry l k v = l := by
  unfold setdefaultEntry
  rw [h]

/-! ### Loop (`foldE`) and field-pair lemmas -/

theorem foldE_cons {σ α : Type} (f : σ → α → Except PyError σ) (s : σ)
    (x : α) (l : List α) :
    foldE f s (x :: l) =
      match f s x with
      | Except.error e => Except.error e
      | Except.ok s' => foldE f s' l := rfl

theorem foldE_append {σ α : Type} (f : σ → α → Except PyError σ) (s : σ)
    (l1 l2 : List α) :
    foldE f s (l1 ++ l2) =
      match foldE f s l1 with
      | Except.error e => Except.error e
      | Except.ok s' => foldE f s' l2 := by
  induction l1 generalizing s with
  | nil => simp [foldE]
  | cons x rest ih =>
    simp only [List.cons_append, foldE]
    cases f s x with
    | error e => rfl
    | ok s' => exact ih s'

theorem foldE_map {σ α β : Type} (f : σ → β → Except PyError σ) (g : α → β)
    (s : σ) (l : List α) :
    foldE f s (l.map g) = foldE (fun s' x => f s' (g x)) s l := by
  induction l generalizing s with
  | nil => rfl
  | cons x rest ih =>
    simp only [List.map_cons, foldE]
    cases f s (g x) with
    | error e => rfl
    | ok s' => exact ih s'

/-- The nested loops of the metaclass, flattened: every
(translations model, field name) round in order. -/
def fieldPairs : List TransModel → List (TransModel × String)
  | [] => []
  | tm :: rest => (fieldNames tm).map (fun n => (tm, n)) ++ fieldPairs rest

theorem fieldPairs_map_snd (models : List TransModel) :
    (fieldPairs models).map Prod.snd = allFields models := by
  induction models with
  | nil => rfl
  | cons tm rest ih =>
    simp [fieldPairs, allFields, List.map_map, ih, Function.comp]

theorem mem_fieldPairs (models : List TransModel) (q : TransModel × String)
    (h : q ∈ fieldPairs models) : q.1 ∈ models ∧ q.2 ∈ fieldNames q.1 := by
  induction models with
  | nil => simp [fieldPairs] at h
  | cons tm rest ih =>
    simp only [fieldPairs, List.mem_append, List.mem_map] at h
    rcases h with ⟨n, hn, hq⟩ | h
    · rw [← hq]
      exact ⟨List.mem_cons_self _ _, hn⟩
    · exact ⟨List.mem_cons_of_mem _ (ih h).1, (ih h).2⟩

theorem mem_fieldPairs_of (models : List TransModel) (tm : TransModel)
    (n : String) (h1 : tm ∈ models) (h2 : n ∈ fieldNames tm) :
    (tm, n) ∈ fieldPairs models := by
  induction models with
  | nil => simp at h1
  | cons m rest ih =>
    simp only [fieldPairs, List.mem_append, List.mem_map]
    rcases List.mem_cons.1 h1 with h | h
    · exact Or.inl ⟨n, h ▸ h2, by rw [h]⟩
    · exact Or.inr (ih h)

theorem mem_allFields (models : List TransModel) (n : String) :
    n ∈ allFields models ↔ ∃ tm, tm ∈ models ∧ n ∈ fieldNames tm := by
  induction models with
  | nil => simp [allFields]
  | cons tm rest ih =>
    simp only [allFields, List.mem_append, ih]
    constructor
    · rintro (h | ⟨m, hm, hn⟩)
      · exact ⟨tm, List.mem_cons_self _ _, h⟩
      · exact ⟨m, List.mem_cons_of_mem _ hm, hn⟩
    · rintro ⟨m, hm, hn⟩
      rcases List.mem_cons.1 hm with h | h
      · exact Or.inl (h ▸ hn)
      · exact Or.inr ⟨m, h, hn⟩

/-- In a family of translations models whose concatenated field names have no
duplicate, a field name determines its translations model. -/
theorem allFields_nodup_unique (models : List TransModel)
    (h : (allFields models).Nodup) (tm tm' : TransModel) (htm : tm ∈ models)
    (htm' : tm' ∈ models) (n : String) (hn : n ∈ fieldNames tm)
    (hn' : n ∈ fieldNames tm') : tm = tm' := by
  induction models with
  | nil => simp at htm
  | cons m rest ih =>
    rw [allFields, List.nodup_append] at h
    rcases List.mem_cons.1 htm with h1 | h1 <;>
      rcases List.mem_cons.1 htm' with h2 | h2
    · rw [h1, h2]
    · exfalso
      exact h.2.2 (h1 ▸ hn) ((mem_allFields rest n).2 ⟨tm', h2, hn'⟩)
    · exfalso
      exact h.2.2 (h2 ▸ hn') ((mem_allFields rest n).2 ⟨tm, h1, hn⟩)
    · exact ih h.2.1 h1 h2

/-! ### Field-resolver lemmas -/

theorem findField_of_mem (flds : List ModelField) (n : String)
    (h : n ∈ flds.map ModelField.name) :
    ∃ fld, findField flds n = some fld ∧ fld.name = n := by
  induction flds with
  | nil => simp at h
  | cons fld rest ih =>
    by_cases hf : fld.name = n
    · exact ⟨fld, by simp [findField, hf], hf⟩
    · simp only [List.map_cons, List.mem_cons] at h
      rcases h with h | h
      · exact absurd h.symm hf
      · obtain ⟨fld', h1, h2⟩ := ih h
        exact ⟨fld', by simp [findField, hf, h1], h2⟩

theorem get_field_of_mem (tm : TransModel) (n : String)
    (h : n ∈ fieldNames tm) :
    ∃ fld, get_field tm n = some fld ∧ fld.name = n :=
  findField_of_mem tm.translated_fields n h

theorem editableB_true_iff (tm : TransModel) (n : String) :
    editableB tm n = true ↔
      ∃ fld, get_field tm n = some fld ∧ fld.editable = true := by
  unfold editableB
  cases h : get_field tm n with
  | none => simp
  | some fld => simp

theorem contains_false_iff (l : List String) (a : String) :
    l.contains a = false ↔ a ∉ l := by
  simp

theorem resolver_of_noneditable (tm : TransModel) (n : String)
    (cb : Option FormfieldCallback) (kw : Kwargs)
    (hmem : n ∈ fieldNames tm) (he : editableB tm n = false) :
    _get_model_form_field tm n cb kw = Except.ok none := by
  obtain ⟨fld, h1, _⟩ := get_field_of_mem tm n hmem
  have he' : fld.editable = false := by
    unfold editableB at he
    rw [h1] at he
    exact he
  simp [_get_model_form_field, h1, he']

theorem resolver_of_editable (tm : TransModel) (n : String)
    (cb : Option FormfieldCallback) (kw : Kwargs) (hcb : callbackOK cb)
    (he : editableB tm n = true) :
    ∃ ff, _get_model_form_field tm n cb kw = Except.ok (some ff) := by
  obtain ⟨fld, h1, he'⟩ := (editableB_true_iff tm n).1 he
  cases cb with
  | none =>
    exact ⟨FormField.default fld kw, by simp [_get_model_form_field, h1, he']⟩
  | some c =>
    obtain ⟨hc, happ⟩ := hcb
    obtain ⟨ff, hff⟩ := Option.isSome_iff_exists.1 (happ fld kw)
    exact ⟨ff, by simp [_get_model_form_field, h1, he', hc, hff]⟩

theorem resolver_of_noncallable (tm : TransModel) (n : String)
    (c : FormfieldCallback) (kw : Kwargs) (hc : c.callable = false)
    (he : editableB tm n = true) :
    _get_model_form_field tm n (some c) kw = Except.error PyError.typeError := by
  obtain ⟨fld, h1, he'⟩ := (editableB_true_iff tm n).1 he
  simp [_get_model_form_field, h1, he', hc]

/-! ### Placeholder-detection lemmas -/

theorem isPlaceholderB_iff (v : AttrValue) :
    v.isPlaceholderB = true ↔ ∃ kw, v = AttrValue.placeholder kw := by
  cases v <;> simp [AttrValue.isPlaceholderB]

theorem mem_placeholderFields_iff (attrs : Attrs) (n : String) :
    n ∈ placeholderFields attrs ↔
      ∃ kw, (n, AttrValue.placeholder kw) ∈ attrs := by
  unfold placeholderFields
  simp only [List.mem_map, List.mem_filter]
  constructor
  · rintro ⟨p, ⟨hp, hph⟩, hn⟩
    obtain ⟨kw, hkw⟩ := (isPlaceholderB_iff p.2).1 hph
    refine ⟨kw, ?_⟩
    have : p = (n, AttrValue.placeholder kw) := Prod.ext hn hkw
    rw [← this]
    exact hp
  · rintro ⟨kw, hkw⟩
    exact ⟨(n, AttrValue.placeholder kw), ⟨hkw, by simp [AttrValue.isPlaceholderB]⟩, rfl⟩

theorem placeholderFields_getEntry (attrs : Attrs) (n : String)
    (hnd : (attrs.map Prod.fst).Nodup) (h : n ∈ placeholderFields attrs) :
    ∃ kw, getEntry attrs n = some (AttrValue.placeholder kw) := by
  obtain ⟨kw, hkw⟩ := (mem_placeholderFields_iff attrs n).1 h
  exact ⟨kw, getEntry_eq_some_of_mem attrs n _ hnd hkw⟩

theorem getEntry_placeholder_mem (attrs : Attrs) (n : String) (kw : Kwargs)
    (h : getEntry attrs n = some (AttrValue.placeholder kw)) :
    n ∈ placeholderFields attrs :=
  (mem_placeholderFields_iff attrs n).2 ⟨kw, mem_of_getEntry_eq_some attrs n _ h⟩

theorem placeholderFields_eq_nil_of_plain (attrs : Attrs)
    (h : ∀ p ∈ attrs, ∃ t, p.2 = AttrValue.other t) :
    placeholderFields attrs = [] := by
  unfold placeholderFields
  have : attrs.filter (fun p => p.2.isPlaceholderB) = [] := by
    rw [List.filter_eq_nil_iff]
    intro p hp
    obtain ⟨t, ht⟩ := h p hp
    simp [ht, AttrValue.isPlaceholderB]
  rw [this]
  rfl

/-! ### Step lemmas for the metaclass loop -/

/-- The flattened metaclass loop body, one (model, field) pair at a time. -/
def stepPair (φ β : List String) (F : Option (List String)) (E : List String)
    (W : List (String × Nat)) (cb : Option FormfieldCallback)
    (bases : List (String → Option AttrValue)) (a : Attrs)
    (q : TransModel × String) : Except PyError Attrs :=
  processField q.1 φ β F E W cb bases a q.2

/-- A successful `processField` round leaves `attrs` unchanged or rewrites
exactly the binding of its own field name. -/
theorem processField_ok_shape (tm : TransModel) (φ β : List String)
    (F : Option (List String)) (E : List String) (W : List (String × Nat))
    (cb : Option FormfieldCallback) (bases : List (String → Option AttrValue))
    (a : Attrs) (n : String) (a' : Attrs)
    (h : processField tm φ β F E W cb bases a n = Except.ok a') :
    a' = a ∨ ∃ v, a' = setEntry a n v := by
  unfold processField at h
  split at h
  · split at h
    · split at h
      · simp at h
      · exact Or.inr ⟨_, (Except.ok.inj h).symm⟩
    · simp at h
  · split at h
    · split at h
      · simp at h
      · exact Or.inr ⟨_, (Except.ok.inj h).symm⟩
      · exact Or.inl (Except.ok.inj h).symm
    · exact Or.inl (Except.ok.inj h).symm

theorem processField_frame (tm : TransModel) (φ β : List String)
    (F : Option (List String)) (E : List String) (W : List (String × Nat))
    (cb : Option FormfieldCallback) (bases : List (String → Option AttrValue))
    (a : Attrs) (n : String) (a' : Attrs)
    (h : processField tm φ β F E W cb bases a n = Except.ok a')
    (m : String) (hm : m ≠ n) : getEntry a' m = getEntry a m := by
  rcases processField_ok_shape tm φ β F E W cb bases a n a' h with rfl | ⟨v, rfl⟩
  · rfl
  · exact getEntry_setEntry_ne a n v m hm

theorem processField_keys_nodup (tm : TransModel) (φ β : List String)
    (F : Option (List String)) (E : List String) (W : List (String × Nat))
    (cb : Option FormfieldCallback) (bases : List (String → Option AttrValue))
    (a : Attrs) (n : String) (a' : Attrs)
    (h : processField tm φ β F E W cb bases a n = Except.ok a')
    (hnd : (a.map Prod.fst).Nodup) : (a'.map Prod.fst).Nodup := by
  rcases processField_ok_shape tm φ β F E W cb bases a n a' h with rfl | ⟨v, rfl⟩
  · exact hnd
  · exact keys_nodup_setEntry a n v hnd

/-- A successful run of the flattened loop leaves every name outside the
processed field names untouched. -/
theorem foldE_pairs_frame (φ β : List String) (F : Option (List String))
    (E : List String) (W : List (String × Nat))
    (cb : Option FormfieldCallback) (bases : List (String → Option AttrValue))
    (pairs : List (TransModel × String)) (a b : Attrs)
    (h : foldE (stepPair φ β F E W cb bases) a pairs = Except.ok b)
    (m : String) (hm : m ∉ pairs.map Prod.snd) :
    getEntry b m = getEntry a m := by
  induction pairs generalizing a with
  | nil => rw [(Except.ok.inj h : a = b)]
  | cons q rest ih =>
    rw [foldE] at h
    simp only [List.map_cons, List.mem_cons] at hm
    push_neg at hm
    cases hq : stepPair φ β F E W cb bases a q with
    | error e => rw [hq] at h; simp at h
    | ok a1 =>
      rw [hq] at h
      rw [ih a1 h hm.2]
      exact processField_frame q.1 φ β F E W cb bases a q.2 a1 hq m hm.1

theorem foldE_pairs_keys_nodup (φ β : List String) (F : Option (List String))
    (E : List String) (W : List (String × Nat))
    (cb : Option FormfieldCallback) (bases : List (String → Option AttrValue))
    (pairs : List (TransModel × String)) (a b : Attrs)
    (h : foldE (stepPair φ β F E W cb bases) a pairs = Except.ok b)
    (hnd : (a.map Prod.fst).Nodup) : (b.map Prod.fst).Nodup := by
  induction pairs generalizing a with
  | nil => rw [← (Except.ok.inj h : a = b)]; exact hnd
  | cons q rest ih =>
    rw [foldE] at h
    cases hq : stepPair φ β F E W cb bases a q with
    | error e => rw [hq] at h; simp at h
    | ok a1 =>
      rw [hq] at h
      exact ih a1 h (processField_keys_nodup q.1 φ β F E W cb bases a q.2 a1 hq hnd)

/-- The metaclass body as the flattened fold over all (model, field) pairs. -/
theorem models_fold_eq_pairs (fm : ModelFormOptions) (mo : Option MetaClass)
    (β φ : List String) (cb : Option FormfieldCallback)
    (bases : List (String → Option AttrValue)) (models : List TransModel)
    (a : Attrs) :
    foldE (process_translations_model fm mo β φ cb bases) a models =
      foldE (stepPair φ β (normalize_fields (effective_meta_fields mo fm))
          ((effective_meta_exclude mo fm).getD [])
          ((effective_meta_widgets mo fm).getD []) cb bases)
        a (fieldPairs models) := by
  induction models generalizing a with
  | nil => rfl
  | cons tm rest ih =>
    have hstep : process_translations_model fm mo β φ cb bases a tm =
        foldE (stepPair φ β (normalize_fields (effective_meta_fields mo fm))
            ((effective_meta_exclude mo fm).getD [])
            ((effective_meta_widgets mo fm).getD []) cb bases)
          a ((fieldNames tm).map (fun n => (tm, n))) := by
      unfold process_translations_model
      rw [foldE_map]
      rfl
    rw [fieldPairs, foldE_append, foldE_cons, hstep]
    cases foldE (stepPair φ β (normalize_fields (effective_meta_fields mo fm))
        ((effective_meta_exclude mo fm).getD [])
        ((effective_meta_widgets mo fm).getD []) cb bases)
        a ((fieldNames tm).map (fun n => (tm, n))) with
    | error e => rfl
    | ok s' => exact ih s'

/-- `TranslatableModelFormMetaclass.__new__` with a model set, as the
flattened fold. -/
theorem metaclass_new_eq_pairs (fm : ModelFormOptions) (mo : Option MetaClass)
    (β : List String) (cb : Option FormfieldCallback)
    (bases : List (String → Option AttrValue)) (attrs : Attrs)
    (model : ParlerModel) (hm : effective_form_model mo fm = some model) :
    TranslatableModelFormMetaclass_new (some fm) β mo cb bases attrs =
      foldE (stepPair (placeholderFields attrs) β
          (normalize_fields (effective_meta_fields mo fm))
          ((effective_meta_exclude mo fm).getD [])
          ((effective_meta_widgets mo fm).getD []) cb bases)
        attrs (fieldPairs (get_all_models model)) := by
  show (match effective_form_model mo fm with
    | none => Except.ok attrs
    | some form_model =>
      foldE (process_translations_model fm mo β (placeholderFields attrs) cb bases)
        attrs (get_all_models form_model)) = _
  rw [hm]
  exact models_fold_eq_pairs fm mo β (placeholderFields attrs) cb bases
    (get_all_models model) attrs

theorem synthGuard_congr (β : List String) (F : Option (List String))
    (E : List String) (a a' : Attrs) (n : String)
    (h : getEntry a' n = getEntry a n) :
    synthGuard β F E a' n ↔ synthGuard β F E a n := by
  unfold synthGuard
  rw [h]

/-- With no placeholders declared, one loop round either synthesizes an
editable guard-admitted field or leaves the attributes unchanged. -/
theorem processField_no_placeholder (tm : TransModel) (β : List String)
    (F : Option (List String)) (E : List String) (W : List (String × Nat))
    (cb : Option FormfieldCallback) (bases : List (String → Option AttrValue))
    (a : Attrs) (n : String) (hcb : callbackOK cb) (hmem : n ∈ fieldNames tm) :
    (editableB tm n = true ∧ synthGuard β F E a n ∧
      ∃ ff, processField tm [] β F E W cb bases a n =
        Except.ok (setEntry a n (AttrValue.formfield ff)))
    ∨ (¬(editableB tm n = true ∧ synthGuard β F E a n) ∧
      processField tm [] β F E W cb bases a n = Except.ok a) := by
  unfold processField
  rw [if_neg (List.not_mem_nil n)]
  by_cases hg : synthGuard β F E a n
  · rw [if_pos hg]
    by_cases he : editableB tm n = true
    · obtain ⟨ff, hr⟩ :=
        resolver_of_editable tm n cb (synthKwargs W bases n) hcb he
      exact Or.inl ⟨he, hg, ff, by rw [hr]⟩
    · have he' : editableB tm n = false := by
        rw [Bool.not_eq_true] at he
        exact he
      have hr := resolver_of_noneditable tm n cb (synthKwargs W bases n) hmem he'
      refine Or.inr ⟨fun hc => he hc.1, by rw [hr]⟩
  · rw [if_neg hg]
    exact Or.inr ⟨fun hc => hg hc.2, rfl⟩

/-- With no placeholders declared and a well-behaved callback, the flattened
loop succeeds and synthesizes exactly the editable, guard-admitted fields,
leaving every other binding unchanged. -/
theorem pairs_synth_char (β : List String) (F : Option (List String))
    (E : List String) (W : List (String × Nat))
    (cb : Option FormfieldCallback) (bases : List (String → Option AttrValue))
    (hcb : callbackOK cb) (pairs : List (TransModel × String)) (a : Attrs)
    (hnd : (pairs.map Prod.snd).Nodup)
    (hmem : ∀ q ∈ pairs, q.2 ∈ fieldNames q.1) :
    ∃ b, foldE (stepPair [] β F E W cb bases) a pairs = Except.ok b ∧
      (∀ m, m ∉ pairs.map Prod.snd → getEntry b m = getEntry a m) ∧
      (∀ q ∈ pairs,
        (editableB q.1 q.2 = true ∧ synthGuard β F E a q.2 →
          ∃ ff, getEntry b q.2 = some (AttrValue.formfield ff)) ∧
        (¬(editableB q.1 q.2 = true ∧ synthGuard β F E a q.2) →
          getEntry b q.2 = getEntry a q.2)) := by
  induction pairs generalizing a with
  | nil => exact ⟨a, rfl, fun m _ => rfl, by simp⟩
  | cons q rest ih =>
    simp only [List.map_cons, List.nodup_cons] at hnd
    have hmemq : q.2 ∈ fieldNames q.1 := hmem q (List.mem_cons_self _ _)
    have hmem' : ∀ q' ∈ rest, q'.2 ∈ fieldNames q'.1 :=
      fun q' hq' => hmem q' (List.mem_cons_of_mem _ hq')
    rcases processField_no_placeholder q.1 β F E W cb bases a q.2 hcb hmemq with
      ⟨he, hg, ff, hstep⟩ | ⟨hne, hstep⟩
    · obtain ⟨b, hfold, hframe, hchar⟩ :=
        ih (setEntry a q.2 (AttrValue.formfield ff)) hnd.2 hmem'
      refine ⟨b, ?_, ?_, ?_⟩
      · rw [foldE_cons]
        rw [show stepPair [] β F E W cb bases a q =
            Except.ok (setEntry a q.2 (AttrValue.formfield ff)) from hstep]
        exact hfold
      · intro m hm
        simp only [List.map_cons, List.mem_cons] at hm
        push_neg at hm
        rw [hframe m hm.2]
        exact getEntry_setEntry_ne a q.2 _ m hm.1
      · intro q' hq'
        rcases List.mem_cons.1 hq' with h1 | h1
        · subst h1
          have hb : getEntry b q'.2 = some (AttrValue.formfield ff) := by
            rw [hframe q'.2 (fun hc => hnd.1 hc)]
            exact getEntry_setEntry_self a q'.2 _
          exact ⟨fun _ => ⟨ff, hb⟩, fun hc => absurd ⟨he, hg⟩ hc⟩
        · have hne2 : q'.2 ≠ q.2 := fun hc =>
            hnd.1 (hc ▸ List.mem_map.2 ⟨q', h1, rfl⟩)
          have hpre : getEntry (setEntry a q.2 (AttrValue.formfield ff)) q'.2 =
              getEntry a q'.2 := getEntry_setEntry_ne a q.2 _ q'.2 hne2
          have hgiff := synthGuard_congr β F E a
            (setEntry a q.2 (AttrValue.formfield ff)) q'.2 hpre
          obtain ⟨hc1, hc2⟩ := hchar q' h1
          constructor
          · intro hcond
            exact hc1 ⟨hcond.1, hgiff.2 hcond.2⟩
          · intro hcond
            rw [hc2 (fun hc => hcond ⟨hc.1, hgiff.1 hc.2⟩)]
            exact hpre
    · obtain ⟨b, hfold, hframe, hchar⟩ := ih a hnd.2 hmem'
      refine ⟨b, ?_, ?_, ?_⟩
      · rw [foldE_cons]
        rw [show stepPair [] β F E W cb bases a q = Except.ok a from hstep]
        exact hfold
      · intro m hm
        simp only [List.map_cons, List.mem_cons] at hm
        push_neg at hm
        exact hframe m hm.2
      · intro q' hq'
        rcases List.mem_cons.1 hq' with h1 | h1
        · subst h1
          exact ⟨fun hc => absurd hc hne,
            fun _ => hframe q'.2 (fun hc => hnd.1 hc)⟩
        · exact hchar q' h1

/-- A placeholder name that occurs exactly once among the processed pairs,
paired with a model on which it is editable, survives a successful run as the
resolved form field. -/
theorem pairs_placeholder_resolved (φ β : List String)
    (F : Option (List String)) (E : List String) (W : List (String × Nat))
    (cb : Option FormfieldCallback) (bases : List (String → Option AttrValue))
    (hcb : callbackOK cb) (p : String) (kw : Kwargs) (tm : TransModel)
    (hp_in : p ∈ φ) (he : editableB tm p = true) :
    ∀ (pairs : List (TransModel × String)) (a attrs1 : Attrs),
      (pairs.map Prod.snd).Nodup →
      (∀ q ∈ pairs, q.2 = p → q.1 = tm) →
      (tm, p) ∈ pairs →
      getEntry a p = some (AttrValue.placeholder kw) →
      foldE (stepPair φ β F E W cb bases) a pairs = Except.ok attrs1 →
      ∃ ff, _get_model_form_field tm p cb kw = Except.ok (some ff) ∧
        getEntry attrs1 p = some (AttrValue.formfield ff) := by
  intro pairs
  induction pairs with
  | nil =>
    intro a attrs1 _ _ hmem _ _
    simp at hmem
  | cons q rest ih =>
    intro a attrs1 hnd huniq hmem hget hfold
    simp only [List.map_cons, List.nodup_cons] at hnd
    rw [foldE_cons] at hfold
    by_cases hqp : q.2 = p
    · have hq1 : q.1 = tm := huniq q (List.mem_cons_self _ _) hqp
      obtain ⟨ff, hres⟩ := resolver_of_editable tm p cb kw hcb he
      have hstep : stepPair φ β F E W cb bases a q =
          Except.ok (setEntry a p (AttrValue.formfield ff)) := by
        unfold stepPair processField
        rw [hqp, hq1, if_pos hp_in, hget]
        show (match _get_model_form_field tm p cb kw with
          | Except.error e => Except.error e
          | Except.ok r => Except.ok (setEntry a p (ofFormfieldOpt r))) =
          Except.ok (setEntry a p (AttrValue.formfield ff))
        rw [hres]
        rfl
      rw [hstep] at hfold
      refine ⟨ff, hres, ?_⟩
      have hnot : p ∉ rest.map Prod.snd := hqp ▸ hnd.1
      rw [foldE_pairs_frame φ β F E W cb bases rest _ attrs1 hfold p hnot]
      exact getEntry_setEntry_self a p _
    · cases hq : stepPair φ β F E W cb bases a q with
      | error e =>
        rw [hq] at hfold
        simp at hfold
      | ok a1 =>
        rw [hq] at hfold
        have hmem' : (tm, p) ∈ rest := by
          rcases List.mem_cons.1 hmem with h | h
          · exact absurd (congrArg Prod.snd h.symm) hqp
          · exact h
        have hget1 : getEntry a1 p = some (AttrValue.placeholder kw) := by
          rw [processField_frame q.1 φ β F E W cb bases a q.2 a1 hq p
            (fun hcq => hqp hcq.symm)]
          exact hget
        exact ih a1 attrs1 hnd.2
          (fun q' hq' hq'p => huniq q' (List.mem_cons_of_mem _ hq') hq'p)
          hmem' hget1 hfold

/-- The values a name can hold in `attrs` without contributing a form field. -/
def nonFieldAt (v : Option AttrValue) : Prop :=
  v = none ∨ v = some AttrValue.pyNone ∨ ∃ kw, v = some (AttrValue.placeholder kw)

/-- One loop round on a never-editable field keeps it a non-field. -/
theorem processField_noneditable (tm : TransModel) (φ β : List String)
    (F : Option (List String)) (E : List String) (W : List (String × Nat))
    (cb : Option FormfieldCallback) (bases : List (String → Option AttrValue))
    (a : Attrs) (f : String) (a1 : Attrs) (hmem : f ∈ fieldNames tm)
    (hne : editableB tm f = false) (hP : nonFieldAt (getEntry a f))
    (hq : processField tm φ β F E W cb bases a f = Except.ok a1) :
    nonFieldAt (getEntry a1 f) := by
  unfold processField at hq
  by_cases hφ : f ∈ φ
  · rw [if_pos hφ] at hq
    rcases hP with h0 | h0 | ⟨kw, h0⟩
    · rw [h0] at hq
      exact Except.noConfusion
        (show Except.error PyError.attributeError = Except.ok a1 from hq)
    · rw [h0] at hq
      exact Except.noConfusion
        (show Except.error PyError.attributeError = Except.ok a1 from hq)
    · rw [h0] at hq
      have hq' : (match _get_model_form_field tm f cb kw with
          | Except.error e => Except.error e
          | Except.ok r => Except.ok (setEntry a f (ofFormfieldOpt r))) =
          Except.ok a1 := hq
      rw [resolver_of_noneditable tm f cb kw hmem hne] at hq'
      have hq'' : Except.ok (setEntry a f AttrValue.pyNone) = Except.ok a1 := hq'
      rw [← Except.ok.inj hq'', getEntry_setEntry_self]
      exact Or.inr (Or.inl rfl)
  · rw [if_neg hφ] at hq
    by_cases hg : synthGuard β F E a f
    · rw [if_pos hg, resolver_of_noneditable tm f cb (synthKwargs W bases f)
        hmem hne] at hq
      have hq' : Except.ok a = Except.ok a1 := hq
      rw [← Except.ok.inj hq']
      exact hP
    · rw [if_neg hg] at hq
      rw [← Except.ok.inj hq]
      exact hP

/-- A field that is non-editable on every model pairing it never becomes a
form field during a successful run of the flattened loop. -/
theorem pairs_noneditable_invariant (φ β : List String)
    (F : Option (List String)) (E : List String) (W : List (String × Nat))
    (cb : Option FormfieldCallback) (bases : List (String → Option AttrValue))
    (f : String) :
    ∀ (pairs : List (TransModel × String)) (a b : Attrs),
      (∀ q ∈ pairs, q.2 = f → editableB q.1 f = false) →
      (∀ q ∈ pairs, q.2 ∈ fieldNames q.1) →
      nonFieldAt (getEntry a f) →
      foldE (stepPair φ β F E W cb bases) a pairs = Except.ok b →
      nonFieldAt (getEntry b f) := by
  intro pairs
  induction pairs with
  | nil =>
    intro a b _ _ hP hfold
    rw [← Except.ok.inj hfold]
    exact hP
  | cons q rest ih =>
    intro a b hne hmem hP hfold
    rw [foldE_cons] at hfold
    cases hq : stepPair φ β F E W cb bases a q with
    | error e =>
      rw [hq] at hfold
      simp at hfold
    | ok a1 =>
      rw [hq] at hfold
      refine ih a1 b (fun q' hq' => hne q' (List.mem_cons_of_mem _ hq'))
        (fun q' hq' => hmem q' (List.mem_cons_of_mem _ hq')) ?_ hfold
      by_cases hqf : q.2 = f
      · have hne' : editableB q.1 f = false := hne q (List.mem_cons_self _ _) hqf
        have hmem' : f ∈ fieldNames q.1 := hqf ▸ hmem q (List.mem_cons_self _ _)
        exact processField_noneditable q.1 φ β F E W cb bases a f a1 hmem' hne'
          hP (hqf ▸ hq)
      · rw [processField_frame q.1 φ β F E W cb bases a q.2 a1 hq f
          (fun hcq => hqf hcq.symm)]
        exact hP

/-- With a supplied but non-invocable callback, the flattened loop fails with
`TypeError` as soon as some editable field reaches the resolver (as a declared
placeholder or through the synthesis guard). -/
theorem pairs_noncallable_fails (φ β : List String)
    (F : Option (List String)) (E : List String) (W : List (String × Nat))
    (bases : List (String → Option AttrValue)) (c : FormfieldCallback)
    (hc : c.callable = false) (attrs0 : Attrs) :
    ∀ (pairs : List (TransModel × String)) (a : Attrs),
      (pairs.map Prod.snd).Nodup →
      (∀ q ∈ pairs, q.2 ∈ fieldNames q.1) →
      (∀ m ∈ pairs.map Prod.snd, getEntry a m = getEntry attrs0 m) →
      (∀ m ∈ φ, ∃ kw, getEntry attrs0 m = some (AttrValue.placeholder kw)) →
      (∃ q ∈ pairs, editableB q.1 q.2 = true ∧
        (q.2 ∈ φ ∨ synthGuard β F E attrs0 q.2)) →
      foldE (stepPair φ β F E W (some c) bases) a pairs =
        Except.error PyError.typeError := by
  intro pairs
  induction pairs with
  | nil =>
    intro a _ _ _ _ hreach
    simp at hreach
  | cons q rest ih =>
    intro a hnd hmem hinv hwf hreach
    simp only [List.map_cons, List.nodup_cons] at hnd
    have hinvq : getEntry a q.2 = getEntry attrs0 q.2 :=
      hinv q.2 (List.mem_cons_self _ _)
    rw [foldE_cons]
    by_cases hr : editableB q.1 q.2 = true ∧ (q.2 ∈ φ ∨ synthGuard β F E attrs0 q.2)
    · -- the head reaches the resolver: TypeError here
      have hstep : stepPair φ β F E W (some c) bases a q =
          Except.error PyError.typeError := by
        unfold stepPair processField
        by_cases hφ : q.2 ∈ φ
        · obtain ⟨kw, hkw⟩ := hwf q.2 hφ
          rw [if_pos hφ, hinvq, hkw]
          show (match _get_model_form_field q.1 q.2 (some c) kw with
            | Except.error e => Except.error e
            | Except.ok r => Except.ok (setEntry a q.2 (ofFormfieldOpt r))) =
            Except.error PyError.typeError
          rw [resolver_of_noncallable q.1 q.2 c kw hc hr.1]
        · have hg : synthGuard β F E a q.2 :=
            (synthGuard_congr β F E attrs0 a q.2 hinvq).2 (hr.2.resolve_left hφ)
          rw [if_neg hφ, if_pos hg,
            resolver_of_noncallable q.1 q.2 c (synthKwargs W bases q.2) hc hr.1]
      rw [hstep]
    · -- the head does not reach the resolver: it succeeds, recurse
      have hok : ∃ a1, stepPair φ β F E W (some c) bases a q = Except.ok a1 := by
        unfold stepPair processField
        by_cases hφ : q.2 ∈ φ
        · have hne : editableB q.1 q.2 = false := by
            cases h : editableB q.1 q.2 with
            | false => rfl
            | true => exact absurd ⟨h, Or.inl hφ⟩ hr
          obtain ⟨kw, hkw⟩ := hwf q.2 hφ
          rw [if_pos hφ, hinvq, hkw]
          show ∃ a1, (match _get_model_form_field q.1 q.2 (some c) kw with
            | Except.error e => Except.error e
            | Except.ok r => Except.ok (setEntry a q.2 (ofFormfieldOpt r))) =
            Except.ok a1
          rw [resolver_of_noneditable q.1 q.2 (some c) kw
            (hmem q (List.mem_cons_self _ _)) hne]
          exact ⟨_, rfl⟩
        · rw [if_neg hφ]
          by_cases hg : synthGuard β F E a q.2
          · have hne : editableB q.1 q.2 = false := by
              cases h : editableB q.1 q.2 with
              | false => rfl
              | true => exact absurd ⟨h, Or.inr
                  ((synthGuard_congr β F E attrs0 a q.2 hinvq).1 hg)⟩ hr
            rw [if_pos hg, resolver_of_noneditable q.1 q.2 (some c)
              (synthKwargs W bases q.2) (hmem q (List.mem_cons_self _ _)) hne]
            exact ⟨a, rfl⟩
          · rw [if_neg hg]
            exact ⟨a, rfl⟩
      obtain ⟨a1, hq⟩ := hok
      rw [hq]
      have hreach' : ∃ q' ∈ rest, editableB q'.1 q'.2 = true ∧
          (q'.2 ∈ φ ∨ synthGuard β F E attrs0 q'.2) := by
        obtain ⟨q', hq', hcond⟩ := hreach
        rcases List.mem_cons.1 hq' with h | h
        · exact absurd (h ▸ hcond) hr
        · exact ⟨q', h, hcond⟩
      refine ih a1 hnd.2 (fun q' hq' => hmem q' (List.mem_cons_of_mem _ hq'))
        ?_ hwf hreach'
      intro m hm
      have hmne : m ≠ q.2 := fun hcq => hnd.1 (hcq ▸ hm)
      rw [processField_frame q.1 φ β F E W (some c) bases a q.2 a1 hq m hmne]
      exact hinv m (List.mem_cons_of_mem _ hm)

/-! ### Assembled-field-set lemmas -/

theorem mem_assembled_iff (form_base_fields : List String) (attrs : Attrs)
    (n : String) (hnd : (attrs.map Prod.fst).Nodup) :
    n ∈ assembled_field_set form_base_fields attrs ↔
      (n ∈ form_base_fields ∧ getEntry attrs n ≠ some AttrValue.pyNone)
      ∨ (n ∉ form_base_fields
          ∧ ∃ ff, getEntry attrs n = some (AttrValue.formfield ff)) := by
  unfold assembled_field_set
  simp only [List.mem_append, List.mem_filter, List.mem_map]
  constructor
  · rintro (⟨hβ, hne⟩ | ⟨p, ⟨hp, hq⟩, hn⟩)
    · left
      refine ⟨hβ, ?_⟩
      intro hc
      simp [hc] at hne
    · right
      rw [Bool.and_eq_true] at hq
      obtain ⟨hff, hnb⟩ := hq
      have hnotb : n ∉ form_base_fields := by
        rw [← hn]
        rw [Bool.not_eq_true'] at hnb
        exact (contains_false_iff _ _).1 hnb
      refine ⟨hnotb, ?_⟩
      cases hv : p.2 with
      | formfield ff =>
        refine ⟨ff, ?_⟩
        have : (n, AttrValue.formfield ff) ∈ attrs := by
          have : p = (n, AttrValue.formfield ff) := Prod.ext hn hv
          rw [← this]
          exact hp
        exact getEntry_eq_some_of_mem attrs n _ hnd this
      | placeholder kw => simp [hv, AttrValue.isFormfieldB] at hff
      | pyNone => simp [hv, AttrValue.isFormfieldB] at hff
      | other t => simp [hv, AttrValue.isFormfieldB] at hff
  · rintro (⟨hβ, hne⟩ | ⟨hnb, ff, hff⟩)
    · left
      refine ⟨hβ, ?_⟩
      simp only [Bool.not_eq_true', decide_eq_false_iff_not]
      exact hne
    · right
      refine ⟨(n, AttrValue.formfield ff), ⟨mem_of_getEntry_eq_some attrs n _ hff, ?_⟩, rfl⟩
      rw [Bool.and_eq_true]
      refine ⟨rfl, ?_⟩
      rw [Bool.not_eq_true']
      exact (contains_false_iff _ _).2 hnb

theorem assembled_nodup (form_base_fields : List String) (attrs : Attrs)
    (hβ : form_base_fields.Nodup) (hnd : (attrs.map Prod.fst).Nodup) :
    (assembled_field_set form_base_fields attrs).Nodup := by
  unfold assembled_field_set
  refine List.Nodup.append (hβ.filter _) ?_ ?_
  · exact ((List.filter_sublist attrs).map Prod.fst).nodup hnd
  · intro a ha hb
    have ha' : a ∈ form_base_fields := (List.mem_filter.1 ha).1
    simp only [List.mem_map, List.mem_filter] at hb
    obtain ⟨p, ⟨_, hq⟩, hn⟩ := hb
    rw [Bool.and_eq_true, Bool.not_eq_true'] at hq
    exact (contains_false_iff _ _).1 hq.2 (hn ▸ ha')

/-! ### Form-instance lemmas -/

theorem save_fields_language (translated_fields : List String)
    (cleaned_data : List (String × Nat)) (inst : ModelInstance) :
    (save_translated_fields translated_fields cleaned_data inst).current_language
      = inst.current_language := by
  induction translated_fields generalizing inst with
  | nil => rfl
  | cons t rest ih =>
    unfold save_translated_fields at ih ⊢
    simp only [List.foldl_cons]
    cases getEntry cleaned_data t with
    | none => exact ih inst
    | some v => exact ih (instance_setattr inst t v)

theorem save_fields_frame_notin (translated_fields : List String)
    (cleaned_data : List (String × Nat)) (inst : ModelInstance) (f : String)
    (hf : f ∉ translated_fields) :
    getEntry (save_translated_fields translated_fields cleaned_data inst).attrs f
      = getEntry inst.attrs f := by
  induction translated_fields generalizing inst with
  | nil => rfl
  | cons t rest ih =>
    simp only [List.mem_cons] at hf
    push_neg at hf
    unfold save_translated_fields at ih ⊢
    simp only [List.foldl_cons]
    cases getEntry cleaned_data t with
    | none => exact ih inst hf.2
    | some v =>
      rw [ih (instance_setattr inst t v) hf.2]
      exact getEntry_setEntry_ne inst.attrs t v f hf.1

theorem save_fields_frame_missing (translated_fields : List String)
    (cleaned_data : List (String × Nat)) (inst : ModelInstance) (f : String)
    (h : getEntry cleaned_data f = none) :
    getEntry (save_translated_fields translated_fields cleaned_data inst).attrs f
      = getEntry inst.attrs f := by
  induction translated_fields generalizing inst with
  | nil => rfl
  | cons t rest ih =>
    unfold save_translated_fields at ih ⊢
    simp only [List.foldl_cons]
    cases ht : getEntry cleaned_data t with
    | none => exact ih inst
    | some v =>
      have htf : t ≠ f := by
        intro hc
        rw [hc, h] at ht
        cases ht
      rw [ih (instance_setattr inst t v)]
      exact getEntry_setEntry_ne inst.attrs t v f (fun hc => htf hc.symm)

theorem save_fields_commits (translated_fields : List String)
    (cleaned_data : List (String × Nat)) (inst : ModelInstance) (f : String)
    (v : Nat) (hf : f ∈ translated_fields)
    (hv : getEntry cleaned_data f = some v) :
    getEntry (save_translated_fields translated_fields cleaned_data inst).attrs f
      = some v := by
  induction translated_fields generalizing inst with
  | nil => simp at hf
  | cons t rest ih =>
    unfold save_translated_fields at ih ⊢
    simp only [List.foldl_cons]
    by_cases htf : t = f
    · subst htf
      rw [hv]
      by_cases hrest : t ∈ rest
      · exact ih (instance_setattr inst t v) hrest
      · have := save_fields_frame_notin rest cleaned_data
          (instance_setattr inst t v) t hrest
        unfold save_translated_fields at this
        rw [this]
        exact getEntry_setEntry_self inst.attrs t v
    · have hfr : f ∈ rest := by
        rcases List.mem_cons.1 hf with h | h
        · exact absurd h.symm htf
        · exact h
      cases getEntry cleaned_data t with
      | none => exact ih inst hfr
      | some w => exact ih (instance_setattr inst t w) hfr

theorem foldl_setdefault_frame (names : List String) (val : String → Nat)
    (ini : List (String × Nat)) (f : String) (hf : f ∉ names) :
    getEntry (names.foldl (fun l g => setdefaultEntry l g (val g)) ini) f
      = getEntry ini f := by
  induction names generalizing ini with
  | nil => rfl
  | cons g rest ih =>
    simp only [List.mem_cons] at hf
    push_neg at hf
    simp only [List.foldl_cons]
    rw [ih _ hf.2]
    exact getEntry_setdefaultEntry_ne ini g (val g) f hf.1

theorem foldl_setdefault_preserves_some (names : List String)
    (val : String → Nat) (ini : List (String × Nat)) (f : String) (w : Nat)
    (h : getEntry ini f = some w) :
    getEntry (names.foldl (fun l g => setdefaultEntry l g (val g)) ini) f
      = some w := by
  induction names generalizing ini with
  | nil => exact h
  | cons g rest ih =>
    simp only [List.foldl_cons]
    by_cases hgf : g = f
    · subst hgf
      rw [setdefaultEntry_of_some ini g (val g) w h]
      exact ih ini h
    · refine ih _ ?_
      rw [getEntry_setdefaultEntry_ne ini g (val g) f (fun hc => hgf hc.symm)]
      exact h

theorem foldl_setdefault_mem (names : List String) (val : String → Nat)
    (ini : List (String × Nat)) (f : String) (hf : f ∈ names) :
    getEntry (names.foldl (fun l g => setdefaultEntry l g (val g)) ini) f
      = (getEntry ini f).or (some (val f)) := by
  induction names generalizing ini with
  | nil => simp at hf
  | cons g rest ih =>
    simp only [List.foldl_cons]
    by_cases hgf : g = f
    · subst hgf
      cases hini : getEntry ini g with
      | some w =>
        rw [setdefaultEntry_of_some ini g (val g) w hini]
        simp only [Option.or]
        exact foldl_setdefault_preserves_some rest val ini g w hini
      | none =>
        have h1 : getEntry (setdefaultEntry ini g (val g)) g = some (val g) := by
          rw [getEntry_setdefaultEntry_self, hini]
          rfl
        simp only [Option.or]
        exact foldl_setdefault_preserves_some rest val _ g (val g) h1
    · have hfr : f ∈ rest := by
        rcases List.mem_cons.1 hf with h | h
        · exact absurd h.symm hgf
        · exact h
      rw [ih _ hfr]
      rw [getEntry_setdefaultEntry_ne ini g (val g) f (fun hc => hgf hc.symm)]

theorem load_meta_initial_ok (i : PInstance)
    (ini : List (String × Nat))
    (meta : TransModel × (String → Option Translation)) :
    ∃ ini', load_meta_initial i ini meta = Except.ok ini' := by
  unfold load_meta_initial _get_translated_model
  cases i_tr : meta.2 i.current_language with
  | none => exact ⟨ini, rfl⟩
  | some translation => exact ⟨_, rfl⟩

theorem foldE_load_ok (i : PInstance)
    (metas : List (TransModel × (String → Option Translation)))
    (ini : List (String × Nat)) :
    ∃ ini', foldE (load_meta_initial i) ini metas = Except.ok ini' := by
  induction metas generalizing ini with
  | nil => exact ⟨ini, rfl⟩
  | cons meta rest ih =>
    obtain ⟨ini1, h1⟩ := load_meta_initial_ok i ini meta
    rw [foldE_cons, h1]
    exact ih ini1

theorem load_meta_initial_preserves_some (i : PInstance)
    (ini ini' : List (String × Nat))
    (meta : TransModel × (String → Option Translation)) (f : String) (w : Nat)
    (hw : getEntry ini f = some w)
    (h : load_meta_initial i ini meta = Except.ok ini') :
    getEntry ini' f = some w := by
  unfold load_meta_initial _get_translated_model at h
  cases i_tr : meta.2 i.current_language with
  | none =>
    rw [i_tr] at h
    have h' : Except.ok ini = Except.ok ini' := h
    rw [← Except.ok.inj h']
    exact hw
  | some translation =>
    rw [i_tr] at h
    have h' : Except.ok ((fieldNames meta.1).foldl
        (fun ini_cur field =>
          setdefaultEntry ini_cur field (translation_getattr translation field))
        ini) = Except.ok ini' := h
    rw [← Except.ok.inj h']
    exact foldl_setdefault_preserves_some _ _ ini f w hw

theorem foldE_load_preserves_some (i : PInstance)
    (metas : List (TransModel × (String → Option Translation)))
    (ini ini' : List (String × Nat)) (f : String) (w : Nat)
    (hw : getEntry ini f = some w)
    (h : foldE (load_meta_initial i) ini metas = Except.ok ini') :
    getEntry ini' f = some w := by
  induction metas generalizing ini with
  | nil =>
    rw [← Except.ok.inj h]
    exact hw
  | cons meta rest ih =>
    rw [foldE_cons] at h
    cases h1 : load_meta_initial i ini meta with
    | error e =>
      rw [h1] at h
      simp at h
    | ok ini1 =>
      rw [h1] at h
      exact ih ini1 (load_meta_initial_preserves_some i ini ini1 meta f w hw h1) h

theorem load_meta_initial_frame (i : PInstance)
    (ini ini' : List (String × Nat))
    (meta : TransModel × (String → Option Translation)) (f : String)
    (hf : f ∉ fieldNames meta.1)
    (h : load_meta_initial i ini meta = Except.ok ini') :
    getEntry ini' f = getEntry ini f := by
  unfold load_meta_initial _get_translated_model at h
  cases i_tr : meta.2 i.current_language with
  | none =>
    rw [i_tr] at h
    have h' : Except.ok ini = Except.ok ini' := h
    rw [← Except.ok.inj h']
  | some translation =>
    rw [i_tr] at h
    have h' : Except.ok ((fieldNames meta.1).foldl
        (fun ini_cur field =>
          setdefaultEntry ini_cur field (translation_getattr translation field))
        ini) = Except.ok ini' := h
    rw [← Except.ok.inj h']
    exact foldl_setdefault_frame _ _ ini f hf

theorem foldE_load_frame (i : PInstance)
    (metas : List (TransModel × (String → Option Translation)))
    (ini ini' : List (String × Nat)) (f : String)
    (hf : ∀ m ∈ metas, f ∉ fieldNames m.1)
    (h : foldE (load_meta_initial i) ini metas = Except.ok ini') :
    getEntry ini' f = getEntry ini f := by
  induction metas generalizing ini with
  | nil => rw [← Except.ok.inj h]
  | cons meta rest ih =>
    rw [foldE_cons] at h
    cases h1 : load_meta_initial i ini meta with
    | error e =>
      rw [h1] at h
      simp at h
    | ok ini1 =>
      rw [h1] at h
      rw [ih ini1 (fun m hm => hf m (List.mem_cons_of_mem _ hm)) h]
      exact load_meta_initial_frame i ini ini1 meta f
        (hf meta (List.mem_cons_self _ _)) h1

theorem foldE_load_all_missing (i : PInstance)
    (metas : List (TransModel × (String → Option Translation)))
    (ini : List (String × Nat))
    (hnone : ∀ m ∈ metas, m.2 i.current_language = none) :
    foldE (load_meta_initial i) ini metas = Except.ok ini := by
  induction metas with
  | nil => rfl
  | cons meta rest ih =>
    have hstep : load_meta_initial i ini meta = Except.ok ini := by
      unfold load_meta_initial _get_translated_model
      rw [hnone meta (List.mem_cons_self _ _)]
    rw [foldE_cons, hstep]
    show foldE (load_meta_initial i) ini rest = Except.ok ini
    exact ih (fun m hm => hnone m (List.mem_cons_of_mem _ hm))

/-- An explicitly preset `language_code` is kept. -/
theorem form_init_language_preset (current_language : Option String)
    (l : String) (inst : Option PInstance) (initial : List (String × Nat))
    (get_language : String) (st : FormState)
    (hok : form_init (some l) current_language inst initial get_language
      = Except.ok st) :
    st.language_code = some l := by
  cases inst with
  | none => exact (congrArg FormState.language_code (Except.ok.inj hok)).symm
  | some i =>
    obtain ⟨ini, hini⟩ := foldE_load_ok i i.parler_meta initial
    have hok' : (match foldE (load_meta_initial i) initial i.parler_meta with
        | Except.error e => Except.error e
        | Except.ok ini => Except.ok (⟨ini, some l⟩ : FormState)) =
        Except.ok st := hok
    rw [hini] at hok'
    exact (congrArg FormState.language_code (Except.ok.inj hok')).symm

/-- With no preset code, an existing instance's current language wins. -/
theorem form_init_language_instance (current_language : Option String)
    (i : PInstance) (initial : List (String × Nat)) (get_language : String)
    (st : FormState)
    (hok : form_init none current_language (some i) initial get_language
      = Except.ok st) :
    st.language_code = some i.current_language := by
  obtain ⟨ini, hini⟩ := foldE_load_ok i i.parler_meta initial
  have hok' : (match foldE (load_meta_initial i) initial i.parler_meta with
      | Except.error e => Except.error e
      | Except.ok ini => Except.ok (⟨ini, some i.current_language⟩ : FormState)) =
      Except.ok st := hok
  rw [hini] at hok'
  exact (congrArg FormState.language_code (Except.ok.inj hok')).symm

/-- With no preset code and no instance, the `_current_language` argument or
the process default is used. -/
theorem form_init_language_default (current_language : Option String)
    (initial : List (String × Nat)) (get_language : String) (st : FormState)
    (hok : form_init none current_language none initial get_language
      = Except.ok st) :
    st.language_code = some (pyOr current_language get_language) :=
  (congrArg FormState.language_code (Except.ok.inj hok)).symm

/-! ### Claims C2, C3, C6, C7, C8, C10 -/

/-- Claim C2, amended: for every successfully constructed form, an explicitly
preset `language_code` slot wins; otherwise, when an existing instance is
supplied, that instance's current-language setting wins — even over an
explicitly supplied `_current_language` argument; otherwise the
`_current_language` argument is used, and only in its absence the process-wide
default language. The resolved code is stored in the form's `language_code`
slot. -/
theorem C2_language_resolution (language_code current_language : Option String)
    (inst : Option PInstance) (initial : List (String × Nat))
    (get_language : String) (st : FormState)
    (hok : form_init language_code current_language inst initial get_language
      = Except.ok st) :
    (∀ l, language_code = some l → st.language_code = some l) ∧
    (language_code = none →
      ∀ i, inst = some i → st.language_code = some i.current_language) ∧
    (language_code = none → inst = none →
      st.language_code = some (pyOr current_language get_language)) := by
  refine ⟨?_, ?_, ?_⟩
  · intro l hl
    subst hl
    exact form_init_language_preset current_language l inst initial
      get_language st hok
  · intro hl i hi
    subst hl
    subst hi
    exact form_init_language_instance current_language i initial
      get_language st hok
  · intro hl hi
    subst hl
    subst hi
    exact form_init_language_default current_language initial get_language st hok

/-- Claim C2, counterexample: constructing a form with the explicitly supplied
language code "fr" (`_current_language`) over an existing instance whose
current language is "de" resolves "de", while the claimed priority order
("explicitly supplied code wins") yields "fr". -/
theorem C2_language_resolution_counterexample :
    form_init none (some "fr") (some ⟨"de", []⟩) [] "en" =
      Except.ok ⟨[], some "de"⟩ ∧
    claimed_language_resolution (some "fr") (some ⟨"de", []⟩) "en" = "fr" ∧
    ¬ ("de" : String) = "fr" := by
  refine ⟨rfl, rfl, by decide⟩

theorem C2_language_resolution_witness :
    (∀ l, (some "nl" : Option String) = some l →
      (⟨[], some "nl"⟩ : FormState).language_code = some l) ∧
    ((some "nl" : Option String) = none →
      ∀ i, (some (⟨"de", []⟩ : PInstance) : Option PInstance) = some i →
        (⟨[], some "nl"⟩ : FormState).language_code = some i.current_language) ∧
    ((some "nl" : Option String) = none →
      (some (⟨"de", []⟩ : PInstance) : Option PInstance) = none →
        (⟨[], some "nl"⟩ : FormState).language_code =
          some (pyOr (some "fr") "en")) :=
  C2_language_resolution (some "nl") (some "fr") (some ⟨"de", []⟩) [] "en"
    ⟨[], some "nl"⟩ rfl

/-- Claim C3: after the pre-validation commit hook (`_post_clean` up to the
base class's own step), the instance's active language equals the form's
resolved `language_code`, and every translated field that is also a declared
form field and has a cleaned value carries exactly that value on the model
instance. -/
theorem C3_post_clean_commits (language_code : String) (model : ParlerModel)
    (form_fields : List String) (cleaned_data : List (String × Nat))
    (inst : ModelInstance) (f : String) (v : Nat)
    (hf : f ∈ get_all_fields model) (hform : f ∈ form_fields)
    (hv : getEntry cleaned_data f = some v) :
    (_post_clean language_code (_translated_fields model form_fields)
        cleaned_data inst).current_language = language_code ∧
    getEntry (_post_clean language_code (_translated_fields model form_fields)
        cleaned_data inst).attrs f = some v := by
  have hmem : f ∈ _translated_fields model form_fields := by
    unfold _translated_fields
    rw [List.mem_filter]
    exact ⟨hf, by simpa using hform⟩
  unfold _post_clean
  constructor
  · rw [save_fields_language]
    rfl
  · exact save_fields_commits _ cleaned_data _ f v hmem hv

theorem C3_post_clean_commits_witness :
    (_post_clean "en" (_translated_fields ⟨[⟨[⟨"title", true⟩]⟩]⟩ ["title"])
        [("title", 5)] ⟨"xx", [("title", 1)]⟩).current_language = "en" ∧
    getEntry (_post_clean "en"
        (_translated_fields ⟨[⟨[⟨"title", true⟩]⟩]⟩ ["title"])
        [("title", 5)] ⟨"xx", [("title", 1)]⟩).attrs "title" = some 5 :=
  C3_post_clean_commits "en" ⟨[⟨[⟨"title", true⟩]⟩]⟩ ["title"]
    [("title", 5)] ⟨"xx", [("title", 1)]⟩ "title" 5
    (by decide) (by decide) (by decide)

/-- Claim C6: a translated field whose cleaned value is absent (its own
validation failed) is skipped by the commit step without raising — its model
attribute is unchanged — while every other translated form field with a
cleaned value is still committed. -/
theorem C6_failed_field_skipped (language_code : String) (model : ParlerModel)
    (form_fields : List String) (cleaned_data : List (String × Nat))
    (inst : ModelInstance) (f : String)
    (hmissing : getEntry cleaned_data f = none) :
    getEntry (_post_clean language_code (_translated_fields model form_fields)
        cleaned_data inst).attrs f = getEntry inst.attrs f ∧
    (∀ g w, g ∈ get_all_fields model → g ∈ form_fields →
      getEntry cleaned_data g = some w →
      getEntry (_post_clean language_code (_translated_fields model form_fields)
          cleaned_data inst).attrs g = some w) := by
  unfold _post_clean
  constructor
  · exact save_fields_frame_missing _ cleaned_data _ f hmissing
  · intro g w hg hgform hgv
    have hmem : g ∈ _translated_fields model form_fields := by
      unfold _translated_fields
      rw [List.mem_filter]
      exact ⟨hg, by simpa using hgform⟩
    exact save_fields_commits _ cleaned_data _ g w hmem hgv

theorem C6_failed_field_skipped_witness :
    getEntry (_post_clean "en"
        (_translated_fields ⟨[⟨[⟨"title", true⟩, ⟨"slug", true⟩]⟩]⟩
          ["title", "slug"])
        [("slug", 9)] ⟨"xx", [("title", 1)]⟩).attrs "title" =
      getEntry [("title", 1)] "title" ∧
    (∀ g w, g ∈ get_all_fields ⟨[⟨[⟨"title", true⟩, ⟨"slug", true⟩]⟩]⟩ →
      g ∈ ["title", "slug"] → getEntry [("slug", 9)] g = some w →
      getEntry (_post_clean "en"
          (_translated_fields ⟨[⟨[⟨"title", true⟩, ⟨"slug", true⟩]⟩]⟩
            ["title", "slug"])
          [("slug", 9)] ⟨"xx", [("title", 1)]⟩).attrs g = some w) :=
  C6_failed_field_skipped "en" ⟨[⟨[⟨"title", true⟩, ⟨"slug", true⟩]⟩]⟩
    ["title", "slug"] [("slug", 9)] ⟨"xx", [("title", 1)]⟩ "title" (by decide)

/-- Claim C10: the translated-field subset of a form contains exactly the
names present both in the form's field mapping and among some shadow model's
translated field names. -/
theorem C10_translated_fields_exact (model : ParlerModel)
    (form_fields : List String) (f : String) :
    f ∈ _translated_fields model form_fields ↔
      (f ∈ form_fields ∧ ∃ tm, tm ∈ get_all_models model ∧ f ∈ fieldNames tm) := by
  unfold _translated_fields get_all_fields
  rw [List.mem_filter, mem_allFields]
  constructor
  · rintro ⟨h1, h2⟩
    exact ⟨by simpa using h2, h1⟩
  · rintro ⟨h1, h2⟩
    exact ⟨h2, by simpa using h1⟩

/-- Claim C7: constructing a form over an existing instance that has a shadow
object for the instance's current language sets each of that shadow's
translated fields' initial values from the shadow object, keeping any
explicitly supplied initial value unchanged. -/
theorem C7_initial_from_translation (language_code current_language : Option String)
    (inst : PInstance) (initial : List (String × Nat)) (get_language : String)
    (pre post : List (TransModel × (String → Option Translation)))
    (meta : TransModel × (String → Option Translation))
    (translation : Translation) (f : String)
    (hsplit : inst.parler_meta = pre ++ meta :: post)
    (hpre : ∀ m ∈ pre, f ∉ fieldNames m.1)
    (htr : _get_translated_model inst meta = Except.ok translation)
    (hf : f ∈ fieldNames meta.1) :
    ∃ st, form_init language_code current_language (some inst) initial
        get_language = Except.ok st ∧
      getEntry st.initial f =
        (getEntry initial f).or (some (translation_getattr translation f)) := by
  obtain ⟨ini1, h1⟩ := foldE_load_ok inst pre initial
  have hframe1 : getEntry ini1 f = getEntry initial f :=
    foldE_load_frame inst pre initial ini1 f hpre h1
  obtain ⟨ini2, h2⟩ := load_meta_initial_ok inst ini1 meta
  have hini2 : getEntry ini2 f =
      (getEntry ini1 f).or (some (translation_getattr translation f)) := by
    unfold load_meta_initial at h2
    rw [htr] at h2
    have h2' : Except.ok ((fieldNames meta.1).foldl
        (fun ini_cur field =>
          setdefaultEntry ini_cur field (translation_getattr translation field))
        ini1) = Except.ok ini2 := h2
    rw [← Except.ok.inj h2']
    exact foldl_setdefault_mem _ _ ini1 f hf
  have hsome : ∃ w, getEntry ini2 f = some w ∧
      some w = (getEntry initial f).or (some (translation_getattr translation f)) := by
    rw [hini2, hframe1]
    cases getEntry initial f with
    | none => exact ⟨_, rfl, rfl⟩
    | some u => exact ⟨u, rfl, rfl⟩
  obtain ⟨w, hw, hw2⟩ := hsome
  obtain ⟨ini3, h3⟩ := foldE_load_ok inst post ini2
  have hini3 : getEntry ini3 f = some w :=
    foldE_load_preserves_some inst post ini2 ini3 f w hw h3
  have hfold : foldE (load_meta_initial inst) initial inst.parler_meta =
      Except.ok ini3 := by
    rw [hsplit, foldE_append, h1]
    show foldE (load_meta_initial inst) ini1 (meta :: post) = Except.ok ini3
    rw [foldE_cons, h2]
    show foldE (load_meta_initial inst) ini2 post = Except.ok ini3
    exact h3
  refine ⟨⟨ini3, match language_code with
    | some lc0 => some lc0
    | none => some inst.current_language⟩, ?_, ?_⟩
  · show (match foldE (load_meta_initial inst) initial inst.parler_meta with
      | Except.error e => Except.error e
      | Except.ok ini => Except.ok ((⟨ini, match language_code with
          | some lc0 => some lc0
          | none => some inst.current_language⟩ : FormState))) = _
    rw [hfold]
  · show getEntry ini3 f = _
    rw [hini3, hw2]

theorem C7_initial_from_translation_witness :
    ∃ st, form_init none none
        (some ⟨"en", [(⟨[⟨"title", true⟩]⟩,
          fun l => if l = "en" then some [("title", 42)] else none)]⟩)
        [] "en" = Except.ok st ∧
      getEntry st.initial "title" =
        (getEntry ([] : List (String × Nat)) "title").or
          (some (translation_getattr [("title", 42)] "title")) :=
  C7_initial_from_translation none none
    ⟨"en", [(⟨[⟨"title", true⟩]⟩,
      fun l => if l = "en" then some [("title", 42)] else none)]⟩
    [] "en" [] []
    (⟨[⟨"title", true⟩]⟩, fun l => if l = "en" then some [("title", 42)] else none)
    [("title", 42)] "title" rfl
    (by intro m hm; cases hm) rfl (by decide)

/-- Claim C8: constructing a form over an existing instance with no shadow
object for the requested (current) language raises no error, and the
translation-loading mechanism leaves the initial values untouched. -/
theorem C8_missing_translation_silent (language_code current_language : Option String)
    (inst : PInstance) (initial : List (String × Nat)) (get_language : String)
    (hnone : ∀ m ∈ inst.parler_meta, m.2 inst.current_language = none) :
    ∃ st, form_init language_code current_language (some inst) initial
        get_language = Except.ok st ∧ st.initial = initial := by
  have hfold := foldE_load_all_missing inst inst.parler_meta initial hnone
  refine ⟨⟨initial, match language_code with
    | some lc0 => some lc0
    | none => some inst.current_language⟩, ?_, rfl⟩
  show (match foldE (load_meta_initial inst) initial inst.parler_meta with
    | Except.error e => Except.error e
    | Except.ok ini => Except.ok ((⟨ini, match language_code with
        | some lc0 => some lc0
        | none => some inst.current_language⟩ : FormState))) = _
  rw [hfold]

theorem C8_missing_translation_silent_witness :
    ∃ st, form_init none none
        (some ⟨"en", [(⟨[⟨"title", true⟩]⟩, fun _ => none)]⟩)
        [("other", 1)] "en" = Except.ok st ∧ st.initial = [("other", 1)] :=
  C8_missing_translation_silent none none
    ⟨"en", [(⟨[⟨"title", true⟩]⟩, fun _ => none)]⟩ [("other", 1)] "en"
    (by
      intro m hm
      rw [List.mem_singleton] at hm
      subst hm
      rfl)

/-! ### Claims C1, C4, C5, C9 -/

/-- Claim C1, amended: over shadow models contributing pairwise-disjoint
translated-field sets, a form class whose own attributes declare no
placeholders and no form fields assembles exactly the inherited base-declared
fields plus those editable translated fields that are not excluded, not absent
from an inclusive `fields` list, and not already present in inherited base
fields or the class's own attributes — with no duplicates. -/
theorem C1_assembled_field_set (fm : ModelFormOptions) (mo : Option MetaClass)
    (model : ParlerModel) (form_base_fields : List String) (attrs0 : Attrs)
    (cb : Option FormfieldCallback) (bases : List (String → Option AttrValue))
    (hmodel : effective_form_model mo fm = some model)
    (hbase : form_base_fields.Nodup)
    (hkeys : (attrs0.map Prod.fst).Nodup)
    (hplain : ∀ p ∈ attrs0, ∃ t, p.2 = AttrValue.other t)
    (hdisj : (allFields (get_all_models model)).Nodup)
    (hcb : callbackOK cb) :
    ∃ attrs1, TranslatableModelFormMetaclass_new (some fm) form_base_fields mo
        cb bases attrs0 = Except.ok attrs1 ∧
      (∀ n, n ∈ assembled_field_set form_base_fields attrs1 ↔
        (n ∈ form_base_fields ∨
          synthesized_field (normalize_fields (effective_meta_fields mo fm))
            ((effective_meta_exclude mo fm).getD []) form_base_fields model
            attrs0 n)) ∧
      (assembled_field_set form_base_fields attrs1).Nodup := by
  have hφ : placeholderFields attrs0 = [] :=
    placeholderFields_eq_nil_of_plain attrs0 hplain
  have hndpairs : ((fieldPairs (get_all_models model)).map Prod.snd).Nodup := by
    rw [fieldPairs_map_snd]
    exact hdisj
  have hmemp : ∀ q ∈ fieldPairs (get_all_models model), q.2 ∈ fieldNames q.1 :=
    fun q hq => (mem_fieldPairs _ q hq).2
  obtain ⟨b, hfold, hframe, hchar⟩ := pairs_synth_char form_base_fields
    (normalize_fields (effective_meta_fields mo fm))
    ((effective_meta_exclude mo fm).getD [])
    ((effective_meta_widgets mo fm).getD []) cb bases hcb
    (fieldPairs (get_all_models model)) attrs0 hndpairs hmemp
  have hnew : TranslatableModelFormMetaclass_new (some fm) form_base_fields mo
      cb bases attrs0 = Except.ok b := by
    rw [metaclass_new_eq_pairs fm mo form_base_fields cb bases attrs0 model
      hmodel, hφ]
    exact hfold
  have hkeysb : (b.map Prod.fst).Nodup :=
    foldE_pairs_keys_nodup [] form_base_fields _ _ _ cb bases _ attrs0 b
      hfold hkeys
  have hattrs0_plain : ∀ n v, getEntry attrs0 n = some v →
      ∃ t, v = AttrValue.other t :=
    fun n v hv => hplain (n, v) (mem_of_getEntry_eq_some attrs0 n v hv)
  have hnotNone : ∀ n, getEntry b n ≠ some AttrValue.pyNone := by
    intro n
    have hfromattrs : getEntry attrs0 n ≠ some AttrValue.pyNone := by
      intro hcon
      obtain ⟨t, ht⟩ := hattrs0_plain n AttrValue.pyNone hcon
      cases ht
    by_cases hn : n ∈ (fieldPairs (get_all_models model)).map Prod.snd
    · obtain ⟨q, hq, hq2⟩ := List.mem_map.1 hn
      obtain ⟨hc1, hc2⟩ := hchar q hq
      by_cases hcond : editableB q.1 q.2 = true ∧
          synthGuard form_base_fields
            (normalize_fields (effective_meta_fields mo fm))
            ((effective_meta_exclude mo fm).getD []) attrs0 q.2
      · obtain ⟨ff, hff⟩ := hc1 hcond
        rw [hq2] at hff
        rw [hff]
        intro hcon
        cases hcon
      · rw [← hq2, hc2 hcond, hq2]
        exact hfromattrs
    · rw [hframe n hn]
      exact hfromattrs
  refine ⟨b, hnew, ?_, assembled_nodup form_base_fields b hbase hkeysb⟩
  intro n
  rw [mem_assembled_iff form_base_fields b n hkeysb]
  constructor
  · rintro (⟨h1, _⟩ | ⟨hnb, ff, hff⟩)
    · exact Or.inl h1
    · right
      have hfromattrs : getEntry attrs0 n ≠ some (AttrValue.formfield ff) := by
        intro hcon
        obtain ⟨t, ht⟩ := hattrs0_plain n _ hcon
        cases ht
      by_cases hn : n ∈ (fieldPairs (get_all_models model)).map Prod.snd
      · obtain ⟨q, hq, hq2⟩ := List.mem_map.1 hn
        obtain ⟨hc1, hc2⟩ := hchar q hq
        by_cases hcond : editableB q.1 q.2 = true ∧
            synthGuard form_base_fields
              (normalize_fields (effective_meta_fields mo fm))
              ((effective_meta_exclude mo fm).getD []) attrs0 q.2
        · exact ⟨q.1, (mem_fieldPairs _ q hq).1, hq2 ▸ (mem_fieldPairs _ q hq).2,
            hq2 ▸ hcond.1, hq2 ▸ hcond.2⟩
        · rw [← hq2, hc2 hcond, hq2] at hff
          exact absurd hff hfromattrs
      · rw [hframe n hn] at hff
        exact absurd hff hfromattrs
  · rintro (h1 | ⟨tm, htm, hnf, hed, hg⟩)
    · exact Or.inl ⟨h1, hnotNone n⟩
    · right
      have hq : (tm, n) ∈ fieldPairs (get_all_models model) :=
        mem_fieldPairs_of _ tm n htm hnf
      have hnb : n ∉ form_base_fields := by
        unfold synthGuard at hg
        exact hg.1
      obtain ⟨hc1, _⟩ := hchar (tm, n) hq
      obtain ⟨ff, hff⟩ := hc1 ⟨hed, hg⟩
      exact ⟨hnb, ff, hff⟩

/-- Claim C1, counterexample: a single shadow model holding one non-editable
translated field `hidden`, with `fields = None` and no `exclude`: the claimed
field set contains `hidden`, but assembly omits it (the resolver returns the
omission signal for non-editable fields), so the claimed equality fails. -/
theorem C1_assembled_field_set_counterexample :
    TranslatableModelFormMetaclass_new
        (some ⟨some ⟨[⟨[⟨"hidden", false⟩]⟩]⟩, PyFields.noneV, none, none⟩)
        [] none none [] [] = Except.ok [] ∧
    C1_claimed_mem [] [] none [] ⟨[⟨[⟨"hidden", false⟩]⟩]⟩ "hidden" ∧
    "hidden" ∉ assembled_field_set [] [] := by
  refine ⟨rfl, Or.inr ⟨by decide, Or.inl rfl, by decide, by decide, rfl⟩,
    by decide⟩

theorem C1_assembled_field_set_witness :
    ∃ attrs1, TranslatableModelFormMetaclass_new
        (some ⟨some ⟨[⟨[⟨"title", true⟩]⟩]⟩, PyFields.noneV, none, none⟩)
        [] none none [] [] = Except.ok attrs1 ∧
      (∀ n, n ∈ assembled_field_set [] attrs1 ↔
        (n ∈ ([] : List String) ∨
          synthesized_field
            (normalize_fields (effective_meta_fields none
              ⟨some ⟨[⟨[⟨"title", true⟩]⟩]⟩, PyFields.noneV, none, none⟩))
            ((effective_meta_exclude none
              ⟨some ⟨[⟨[⟨"title", true⟩]⟩]⟩, PyFields.noneV, none, none⟩).getD [])
            [] ⟨[⟨[⟨"title", true⟩]⟩]⟩ [] n)) ∧
      (assembled_field_set [] attrs1).Nodup :=
  C1_assembled_field_set
    ⟨some ⟨[⟨[⟨"title", true⟩]⟩]⟩, PyFields.noneV, none, none⟩ none
    ⟨[⟨[⟨"title", true⟩]⟩]⟩ [] [] none [] rfl (by decide) (by decide)
    (by simp) (by decide) trivial

/-- Claim C4, amended: a placeholder declared directly on the class, whose
name matches an editable translated field of exactly one shadow model, is
replaced by the resolver's form field in any successful assembly — regardless
of the `exclude`/`fields` directives (which are arbitrary here); when the
matched model field is non-editable, the resolver's omission signal is stored
instead (see the counterexample). -/
theorem C4_placeholder_resolved (fm : ModelFormOptions) (mo : Option MetaClass)
    (model : ParlerModel) (form_base_fields : List String) (attrs0 : Attrs)
    (cb : Option FormfieldCallback) (bases : List (String → Option AttrValue))
    (p : String) (kw : Kwargs) (tm : TransModel) (attrs1 : Attrs)
    (hmodel : effective_form_model mo fm = some model)
    (hph : getEntry attrs0 p = some (AttrValue.placeholder kw))
    (hdisj : (allFields (get_all_models model)).Nodup)
    (htm : tm ∈ get_all_models model)
    (hf : p ∈ fieldNames tm)
    (hed : editableB tm p = true)
    (hcb : callbackOK cb)
    (hok : TranslatableModelFormMetaclass_new (some fm) form_base_fields mo
      cb bases attrs0 = Except.ok attrs1) :
    ∃ ff, _get_model_form_field tm p cb kw = Except.ok (some ff) ∧
      getEntry attrs1 p = some (AttrValue.formfield ff) := by
  rw [metaclass_new_eq_pairs fm mo form_base_fields cb bases attrs0 model
    hmodel] at hok
  refine pairs_placeholder_resolved (placeholderFields attrs0) form_base_fields
    (normalize_fields (effective_meta_fields mo fm))
    ((effective_meta_exclude mo fm).getD [])
    ((effective_meta_widgets mo fm).getD []) cb bases hcb p kw tm
    (getEntry_placeholder_mem attrs0 p kw hph) hed
    (fieldPairs (get_all_models model)) attrs0 attrs1 ?_ ?_ ?_ hph hok
  · rw [fieldPairs_map_snd]
    exact hdisj
  · intro q hq hq2
    obtain ⟨hq1, hqf⟩ := mem_fieldPairs _ q hq
    exact allFields_nodup_unique _ hdisj q.1 tm hq1 htm p (hq2 ▸ hqf) hf
  · exact mem_fieldPairs_of _ tm p htm hf

/-- Claim C4, counterexample: a placeholder for the non-editable field
`hidden` is replaced by the omission marker (`None`), not by a resolved form
field, and `hidden` does not appear in the assembled field set. -/
theorem C4_placeholder_resolved_counterexample :
    TranslatableModelFormMetaclass_new
        (some ⟨some ⟨[⟨[⟨"hidden", false⟩]⟩]⟩, PyFields.noneV, none, none⟩)
        [] none none [] [("hidden", AttrValue.placeholder [])] =
      Except.ok [("hidden", AttrValue.pyNone)] ∧
    "hidden" ∉ assembled_field_set [] [("hidden", AttrValue.pyNone)] :=
  ⟨rfl, by decide⟩

theorem C4_placeholder_resolved_witness :
    ∃ ff, _get_model_form_field ⟨[⟨"title", true⟩]⟩ "title" none [("x", 7)]
        = Except.ok (some ff) ∧
      getEntry [("title", AttrValue.formfield
          (FormField.default ⟨"title", true⟩ [("x", 7)]))] "title" =
        some (AttrValue.formfield ff) :=
  C4_placeholder_resolved
    ⟨some ⟨[⟨[⟨"title", true⟩]⟩]⟩, PyFields.noneV, some ["title"], none⟩ none
    ⟨[⟨[⟨"title", true⟩]⟩]⟩ [] [("title", AttrValue.placeholder [("x", 7)])]
    none [] "title" [("x", 7)] ⟨[⟨"title", true⟩]⟩
    [("title", AttrValue.formfield
      (FormField.default ⟨"title", true⟩ [("x", 7)]))]
    rfl rfl (by decide) (by decide) (by decide) (by decide) trivial rfl

/-- Claim C5: a non-editable translated field resolves to the omission signal
(`None`) for every kwargs, and its name — present at most as a placeholder in
the class's own attributes and absent from the inherited base fields — never
appears as a form field in the assembled field set, neither via synthesis nor
via a declared placeholder. -/
theorem C5_noneditable_omitted (fm : ModelFormOptions) (mo : Option MetaClass)
    (model : ParlerModel) (form_base_fields : List String) (attrs0 : Attrs)
    (cb : Option FormfieldCallback) (bases : List (String → Option AttrValue))
    (f : String) (tm : TransModel) (attrs1 : Attrs)
    (hmodel : effective_form_model mo fm = some model)
    (hkeys : (attrs0.map Prod.fst).Nodup)
    (hnb : f ∉ form_base_fields)
    (hattr0 : getEntry attrs0 f = none ∨
      ∃ kw, getEntry attrs0 f = some (AttrValue.placeholder kw))
    (hnonedit : ∀ tm', tm' ∈ get_all_models model → editableB tm' f = false)
    (htm : tm ∈ get_all_models model) (hf : f ∈ fieldNames tm)
    (hok : TranslatableModelFormMetaclass_new (some fm) form_base_fields mo
      cb bases attrs0 = Except.ok attrs1) :
    (∀ kw, _get_model_form_field tm f cb kw = Except.ok none) ∧
    f ∉ assembled_field_set form_base_fields attrs1 := by
  constructor
  · intro kw
    exact resolver_of_noneditable tm f cb kw hf (hnonedit tm htm)
  · rw [metaclass_new_eq_pairs fm mo form_base_fields cb bases attrs0 model
      hmodel] at hok
    have hP : nonFieldAt (getEntry attrs1 f) := by
      refine pairs_noneditable_invariant (placeholderFields attrs0)
        form_base_fields _ _ _ cb bases f (fieldPairs (get_all_models model))
        attrs0 attrs1 ?_ ?_ ?_ hok
      · intro q hq _
        exact hnonedit q.1 (mem_fieldPairs _ q hq).1
      · exact fun q hq => (mem_fieldPairs _ q hq).2
      · rcases hattr0 with h | ⟨kw, h⟩
        · exact Or.inl h
        · exact Or.inr (Or.inr ⟨kw, h⟩)
    have hkeys1 : (attrs1.map Prod.fst).Nodup :=
      foldE_pairs_keys_nodup _ _ _ _ _ cb bases _ attrs0 attrs1 hok hkeys
    intro hc
    rcases (mem_assembled_iff form_base_fields attrs1 f hkeys1).1 hc with
      ⟨h1, _⟩ | ⟨_, ff, hff⟩
    · exact hnb h1
    · rcases hP with h | h | ⟨kw, h⟩ <;> rw [hff] at h <;> simp at h

theorem C5_noneditable_omitted_witness :
    (∀ kw, _get_model_form_field ⟨[⟨"hidden", false⟩]⟩ "hidden" none kw
      = Except.ok none) ∧
    "hidden" ∉ assembled_field_set [] [("hidden", AttrValue.pyNone)] :=
  C5_noneditable_omitted
    ⟨some ⟨[⟨[⟨"hidden", false⟩]⟩]⟩, PyFields.noneV, none, none⟩ none
    ⟨[⟨[⟨"hidden", false⟩]⟩]⟩ [] [("hidden", AttrValue.placeholder [])] none []
    "hidden" ⟨[⟨"hidden", false⟩]⟩ [("hidden", AttrValue.pyNone)]
    rfl (by decide) (by decide) (Or.inr ⟨[], rfl⟩) (by decide) (by decide)
    (by decide) rfl

/-- Claim C9, amended: with a supplied but non-invocable field-construction
hook, class assembly fails with `TypeError` as soon as some editable
translated field actually reaches the resolver (as a declared placeholder or
through the synthesis guard); no form field is built. Without such a field
the hook is never invoked and assembly succeeds (see the counterexample). -/
theorem C9_noncallable_fails (fm : ModelFormOptions) (mo : Option MetaClass)
    (model : ParlerModel) (form_base_fields : List String) (attrs0 : Attrs)
    (c : FormfieldCallback) (bases : List (String → Option AttrValue))
    (tm : TransModel) (n : String)
    (hmodel : effective_form_model mo fm = some model)
    (hkeys : (attrs0.map Prod.fst).Nodup)
    (hc : c.callable = false)
    (hdisj : (allFields (get_all_models model)).Nodup)
    (htm : tm ∈ get_all_models model) (hn : n ∈ fieldNames tm)
    (hed : editableB tm n = true)
    (hreach : n ∈ placeholderFields attrs0 ∨
      synthGuard form_base_fields
        (normalize_fields (effective_meta_fields mo fm))
        ((effective_meta_exclude mo fm).getD []) attrs0 n) :
    TranslatableModelFormMetaclass_new (some fm) form_base_fields mo (some c)
      bases attrs0 = Except.error PyError.typeError := by
  rw [metaclass_new_eq_pairs fm mo form_base_fields (some c) bases attrs0
    model hmodel]
  refine pairs_noncallable_fails (placeholderFields attrs0) form_base_fields
    (normalize_fields (effective_meta_fields mo fm))
    ((effective_meta_exclude mo fm).getD [])
    ((effective_meta_widgets mo fm).getD []) bases c hc attrs0
    (fieldPairs (get_all_models model)) attrs0 ?_ ?_ (fun m _ => rfl) ?_ ?_
  · rw [fieldPairs_map_snd]
    exact hdisj
  · exact fun q hq => (mem_fieldPairs _ q hq).2
  · intro m hm
    exact placeholderFields_getEntry attrs0 m hkeys hm
  · exact ⟨(tm, n), mem_fieldPairs_of _ tm n htm hn, hed, hreach⟩

/-- Claim C9, counterexample: a non-invocable hook over a model whose only
translated field is non-editable — the resolver returns before the
invocability check, so assembly succeeds instead of failing with `TypeError`. -/
theorem C9_noncallable_fails_counterexample :
    TranslatableModelFormMetaclass_new
        (some ⟨some ⟨[⟨[⟨"hidden", false⟩]⟩]⟩, PyFields.noneV, none, none⟩) []
        none (some ⟨false, fun _ _ => none⟩) [] [] = Except.ok [] ∧
    ¬ TranslatableModelFormMetaclass_new
        (some ⟨some ⟨[⟨[⟨"hidden", false⟩]⟩]⟩, PyFields.noneV, none, none⟩) []
        none (some ⟨false, fun _ _ => none⟩) [] [] =
      Except.error PyError.typeError := by
  constructor
  · rfl
  · intro hcon
    rw [show TranslatableModelFormMetaclass_new
        (some ⟨some ⟨[⟨[⟨"hidden", false⟩]⟩]⟩, PyFields.noneV, none, none⟩) []
        none (some ⟨false, fun _ _ => none⟩) [] [] = Except.ok [] from rfl]
      at hcon
    exact Except.noConfusion hcon

theorem C9_noncallable_fails_witness :
    TranslatableModelFormMetaclass_new
        (some ⟨some ⟨[⟨[⟨"title", true⟩]⟩]⟩, PyFields.noneV, none, none⟩) []
        none (some ⟨false, fun _ _ => none⟩) [] [] =
      Except.error PyError.typeError :=
  C9_noncallable_fails
    ⟨some ⟨[⟨[⟨"title", true⟩]⟩]⟩, PyFields.noneV, none, none⟩ none
    ⟨[⟨[⟨"title", true⟩]⟩]⟩ [] [] ⟨false, fun _ _ => none⟩ []
    ⟨[⟨"title", true⟩]⟩ "title" rfl (by decide) rfl (by decide) (by decide)
    (by decide) (by decide) (Or.inr (by decide))
